import Mathlib

/-!
Verification of the core text-processing logic of the just-hangry repository
(app/main.py and app/cloud_app.py): the dish-field extractor
(extract_dish_name), the recipe-name normalizer (clean_dish_name), the
recipe resolver fallback strategy (search_recipe_smart) and the order-link
generator (get_order_links).

Python strings are modelled as `List Char`.  Character classes follow the
ASCII semantics of the regexes used by the code: the regex class `\w` is
modelled as ASCII letters, digits and underscore, and `\s` (and `str.strip`,
`str.split`) as the six ASCII whitespace characters.  The external recipe
catalog lookup is an injected function `List Char → Option α`.
-/

/-- ASCII whitespace, modelling the regex class `\s` and the default
character set of Python `str.strip` / `str.split`: space, tab, newline,
carriage return, vertical tab, form feed. -/
def isPySpace (c : Char) : Bool :=
  c == ' ' || c == '\t' || c == '\n' || c == '\r' ||
    c == Char.ofNat 11 || c == Char.ofNat 12

/-- The regex class `\w`: letters, digits, underscore (ASCII). -/
def isWordChar (c : Char) : Bool :=
  c.isAlpha || c.isDigit || c == '_'

/-- A character kept by the code's cleanup regex `re.sub(r'[^\w\s\'-]', '', s)`:
word characters, whitespace, apostrophe and hyphen. -/
def keepChar (c : Char) : Bool :=
  isWordChar c || isPySpace c || c == '\'' || c == '-'

/-- A non-whitespace character kept by the cleanup regex. -/
def goodChar (c : Char) : Bool :=
  isWordChar c || c == '\'' || c == '-'

/-- Python `s.strip()`: drop ASCII whitespace from both ends. -/
def pyStrip (l : List Char) : List Char :=
  ((l.dropWhile isPySpace).reverse.dropWhile isPySpace).reverse

/-- Python `s.strip("*")`: drop `*` characters from both ends. -/
def stripStars (l : List Char) : List Char :=
  ((l.dropWhile (· == '*')).reverse.dropWhile (· == '*')).reverse

/-- Helper for `pySplit`, carrying the current (reversed) word. -/
def pySplitAux : List Char → List Char → List (List Char)
  | [], acc => if acc.isEmpty then [] else [acc.reverse]
  | c :: cs, acc =>
    if isPySpace c then
      if acc.isEmpty then pySplitAux cs [] else acc.reverse :: pySplitAux cs []
    else pySplitAux cs (c :: acc)

/-- Python `s.split()`: split on runs of whitespace, dropping empty pieces. -/
def pySplit (l : List Char) : List (List Char) :=
  pySplitAux l []

/-- Python `" ".join(ws)`. -/
def joinSpace : List (List Char) → List Char
  | [] => []
  | [w] => w
  | w :: ws => w ++ ' ' :: joinSpace ws

/-- Helper for `collapseWs`: the flag records whether the previous character
was whitespace (in which case further whitespace is dropped). -/
def collapseWsAux : Bool → List Char → List Char
  | _, [] => []
  | inWs, c :: cs =>
    if isPySpace c then
      if inWs then collapseWsAux true cs else ' ' :: collapseWsAux true cs
    else c :: collapseWsAux false cs

/-- Python `re.sub(r'\s+', ' ', s)`: collapse every whitespace run to a
single space. -/
def collapseWs (l : List Char) : List Char :=
  collapseWsAux false l

/-- Python `s.lower()` on the ASCII range (the flair denylist is ASCII). -/
def lowerList (l : List Char) : List Char :=
  l.map Char.toLower

/-- The fixed flair-word denylist from `clean_dish_name`. -/
def flair_words : List (List Char) :=
  ["seduction".data, "romantic".data, "passionate".data, "cozy".data, "spooky".data,
   "dreamy".data, "magical".data, "enchanted".data, "ultimate".data, "perfect".data,
   "date night".data, "love".data, "special".data, "delicious".data, "homemade".data,
   "gourmet".data, "classic".data, "authentic".data, "traditional".data, "famous".data,
   "epic".data, "heavenly".data, "divine".data, "sinful".data, "decadent".data,
   "lusty".data, "fiery".data, "sizzling".data, "steamy".data, "midnight".data,
   "moonlit".data, "candlelit".data, "sultry".data, "sensual".data, "forbidden".data,
   "irresistible".data, "tempting".data, "indulgent".data, "luxurious".data]

/-- Does a whitespace-delimited token match the flair denylist after
lowercasing and stripping, as in `w.lower().strip() not in flair_words`? -/
def isFlair (w : List Char) : Bool :=
  flair_words.contains (pyStrip (lowerList w))

/-- `clean_dish_name` from app/main.py (identical in app/cloud_app.py):
strip characters outside `\w`, `\s`, apostrophe, hyphen; drop
whole whitespace-delimited tokens on the flair denylist (case-insensitive);
re-join with single spaces; collapse and trim whitespace. -/
def clean_dish_name (dish_name : List Char) : List Char :=
  let d1 := dish_name.filter keepChar
  let cleaned_words := (pySplit d1).filter (fun w => !(isFlair w))
  let d2 := pyStrip (joinSpace cleaned_words)
  pyStrip (collapseWs d2)

example : clean_dish_name "Lovebird Stew".data = "Lovebird Stew".data := by decide

example : clean_dish_name "Romantic Seared Salmon".data = "Seared Salmon".data := by
  decide

/-- Stable insertion (descending length, earlier element first on ties),
modelling one step of Python `words.sort(key=len, reverse=True)`. -/
def insertDescLen (w : List Char) : List (List Char) → List (List Char)
  | [] => [w]
  | x :: xs => if w.length < x.length then x :: insertDescLen w xs else w :: x :: xs

/-- Python `words.sort(key=len, reverse=True)`: stable sort by descending
character length. -/
def sortDescLen (ws : List (List Char)) : List (List Char) :=
  ws.foldr insertDescLen []

/-- Step 2 of `search_recipe_smart`: the `while len(words) > 1` loop that
pops the first word and retries with the remaining suffix. -/
def resolverStep2 {α : Type} (lookup : List Char → Option α) :
    List (List Char) → Option α
  | [] => none
  | [_] => none
  | _ :: w :: ws =>
    match lookup (joinSpace (w :: ws)) with
    | some r => some r
    | none => resolverStep2 lookup (w :: ws)

/-- Step 3 of `search_recipe_smart`: try each word (sorted longest first),
skipping words of length at most 3. -/
def resolverStep3 {α : Type} (lookup : List Char → Option α) :
    List (List Char) → Option α
  | [] => none
  | w :: ws =>
    if 3 < w.length then
      match lookup w with
      | some r => some r
      | none => resolverStep3 lookup ws
    else resolverStep3 lookup ws

/-- `search_recipe_smart` from app/main.py (identical in app/cloud_app.py),
with the external TheMealDB lookup `search_recipe` injected as `lookup`
(network or parse failures are `none`, like the code's `except: return None`). -/
def search_recipe_smart {α : Type} (lookup : List Char → Option α)
    (dish_name : List Char) : Option α :=
  let cleaned := clean_dish_name dish_name
  match lookup cleaned with
  | some r => some r
  | none =>
    match resolverStep2 lookup (pySplit cleaned) with
    | some r => some r
    | none => resolverStep3 lookup (sortDescLen (pySplit cleaned))

/-- The left-trimmed suffixes of the word list, written from the claim:
repeatedly drop the first word, down to the single last word. -/
def suffixCandidates : List (List Char) → List (List Char)
  | [] => []
  | [_] => []
  | _ :: w :: ws => joinSpace (w :: ws) :: suffixCandidates (w :: ws)

/-- The per-word candidates, written from the claim: individual words in
descending character length, skipping words of length at most 3. -/
def wordCandidates (cleaned : List Char) : List (List Char) :=
  (sortDescLen (pySplit cleaned)).filter (fun w => 3 < w.length)

/-- The full resolver query sequence, written from the claim: the cleaned
name, then the left-trimmed suffixes, then the filtered individual words. -/
def resolver_candidates (dish_name : List Char) : List (List Char) :=
  clean_dish_name dish_name ::
    (suffixCandidates (pySplit (clean_dish_name dish_name)) ++
      wordCandidates (clean_dish_name dish_name))

/-- First non-`none` result of `lookup` along a list of queries. -/
def firstHit {α : Type} (lookup : List Char → Option α) :
    List (List Char) → Option α
  | [] => none
  | q :: qs =>
    match lookup q with
    | some r => some r
    | none => firstHit lookup qs

theorem firstHit_append {α : Type} (lookup : List Char → Option α)
    (xs ys : List (List Char)) :
    firstHit lookup (xs ++ ys) =
      match firstHit lookup xs with
      | some r => some r
      | none => firstHit lookup ys := by
  induction xs with
  | nil => simp [firstHit]
  | cons q qs ih =>
    simp only [List.cons_append, firstHit]
    cases h : lookup q <;> simp [h, ih]

theorem resolverStep2_eq_firstHit {α : Type} (lookup : List Char → Option α)
    (ws : List (List Char)) :
    resolverStep2 lookup ws = firstHit lookup (suffixCandidates ws) := by
  induction ws with
  | nil => rfl
  | cons w t ih =>
    cases t with
    | nil => rfl
    | cons w2 t2 =>
      simp only [resolverStep2, suffixCandidates, firstHit]
      cases lookup (joinSpace (w2 :: t2)) <;> simp [ih]

theorem resolverStep3_eq_firstHit {α : Type} (lookup : List Char → Option α)
    (ws : List (List Char)) :
    resolverStep3 lookup ws = firstHit lookup (ws.filter (fun w => 3 < w.length)) := by
  induction ws with
  | nil => rfl
  | cons w t ih =>
    by_cases h : 3 < w.length
    · simp only [resolverStep3, if_pos h, List.filter_cons, decide_eq_true h, firstHit]
      cases hw : lookup w <;> simp [hw, ih]
    · simp only [resolverStep3, if_neg h, List.filter_cons]
      simp only [ih]
      simp [h]

theorem smart_eq_firstHit {α : Type} (lookup : List Char → Option α)
    (dish_name : List Char) :
    search_recipe_smart lookup dish_name =
      firstHit lookup (resolver_candidates dish_name) := by
  simp only [search_recipe_smart, resolver_candidates, firstHit, firstHit_append,
    resolverStep2_eq_firstHit, resolverStep3_eq_firstHit, wordCandidates]

theorem firstHit_none {α : Type} (lookup : List Char → Option α)
    (h : ∀ q, lookup q = none) (qs : List (List Char)) :
    firstHit lookup qs = none := by
  induction qs with
  | nil => rfl
  | cons q t ih => simp [firstHit, h q, ih]

theorem ws_char_cases {c : Char} (h : isPySpace c = true) :
    c = ' ' ∨ c = '\t' ∨ c = '\n' ∨ c = '\r' ∨ c = Char.ofNat 11 ∨ c = Char.ofNat 12 := by
  have h2 := h
  simp [isPySpace, Bool.or_eq_true, beq_iff_eq] at h2
  tauto

theorem goodChar_not_ws {c : Char} (h : goodChar c = true) : isPySpace c = false := by
  cases hw : isPySpace c with
  | false => rfl
  | true =>
    exfalso
    rcases ws_char_cases hw with h1 | h1 | h1 | h1 | h1 | h1 <;>
      subst h1 <;> exact absurd h (by decide)

theorem pySplitAux_wsfree : ∀ (l acc : List Char),
    (∀ c ∈ acc, isPySpace c = false) →
    ∀ w ∈ pySplitAux l acc, ∀ c ∈ w, isPySpace c = false := by
  intro l
  induction l with
  | nil =>
    intro acc hacc w hw c hc
    simp only [pySplitAux] at hw
    by_cases he : acc.isEmpty = true
    · rw [if_pos he] at hw
      simp at hw
    · rw [if_neg he] at hw
      rcases List.mem_singleton.mp hw with hw
      subst hw
      exact hacc c (List.mem_reverse.mp hc)
  | cons a t ih =>
    intro acc hacc w hw c hc
    simp only [pySplitAux] at hw
    by_cases hs : isPySpace a = true
    · rw [if_pos hs] at hw
      by_cases he : acc.isEmpty = true
      · rw [if_pos he] at hw
        exact ih [] (by simp) w hw c hc
      · rw [if_neg he] at hw
        rcases List.mem_cons.mp hw with hw | hw
        · subst hw
          exact hacc c (List.mem_reverse.mp hc)
        · exact ih [] (by simp) w hw c hc
    · rw [if_neg hs] at hw
      refine ih (a :: acc) ?_ w hw c hc
      intro d hd
      rcases List.mem_cons.mp hd with hd | hd
      · subst hd
        simpa using hs
      · exact hacc d hd

theorem pySplitAux_ne_nil : ∀ (l acc : List Char), ∀ w ∈ pySplitAux l acc, w ≠ [] := by
  intro l
  induction l with
  | nil =>
    intro acc w hw
    simp only [pySplitAux] at hw
    by_cases he : acc.isEmpty = true
    · rw [if_pos he] at hw
      simp at hw
    · rw [if_neg he] at hw
      rcases List.mem_singleton.mp hw with hw
      subst hw
      intro hn
      exact he (by simpa using congrArg List.isEmpty hn)
  | cons a t ih =>
    intro acc w hw
    simp only [pySplitAux] at hw
    by_cases hs : isPySpace a = true
    · rw [if_pos hs] at hw
      by_cases he : acc.isEmpty = true
      · rw [if_pos he] at hw
        exact ih [] w hw
      · rw [if_neg he] at hw
        rcases List.mem_cons.mp hw with hw | hw
        · subst hw
          intro hn
          exact he (by simpa using congrArg List.isEmpty hn)
        · exact ih [] w hw
    · rw [if_neg hs] at hw
      exact ih (a :: acc) w hw

theorem pySplitAux_chars : ∀ (l acc : List Char), ∀ w ∈ pySplitAux l acc,
    ∀ c ∈ w, c ∈ l ∨ c ∈ acc := by
  intro l
  induction l with
  | nil =>
    intro acc w hw c hc
    simp only [pySplitAux] at hw
    by_cases he : acc.isEmpty = true
    · rw [if_pos he] at hw
      simp at hw
    · rw [if_neg he] at hw
      rcases List.mem_singleton.mp hw with hw
      subst hw
      exact Or.inr (List.mem_reverse.mp hc)
  | cons a t ih =>
    intro acc w hw c hc
    simp only [pySplitAux] at hw
    by_cases hs : isPySpace a = true
    · rw [if_pos hs] at hw
      by_cases he : acc.isEmpty = true
      · rw [if_pos he] at hw
        rcases ih [] w hw c hc with h | h
        · exact Or.inl (List.mem_cons_of_mem _ h)
        · simp at h
      · rw [if_neg he] at hw
        rcases List.mem_cons.mp hw with hw | hw
        · subst hw
          exact Or.inr (List.mem_reverse.mp hc)
        · rcases ih [] w hw c hc with h | h
          · exact Or.inl (List.mem_cons_of_mem _ h)
          · simp at h
    · rw [if_neg hs] at hw
      rcases ih (a :: acc) w hw c hc with h | h
      · exact Or.inl (List.mem_cons_of_mem _ h)
      · rcases List.mem_cons.mp h with h | h
        · exact Or.inl (h ▸ List.mem_cons_self _ _)
        · exact Or.inr h

theorem pySplitAux_through : ∀ (w rest acc : List Char),
    (∀ c ∈ w, isPySpace c = false) →
    pySplitAux (w ++ rest) acc = pySplitAux rest (w.reverse ++ acc) := by
  intro w
  induction w with
  | nil => intro rest acc _; simp
  | cons a w' ih =>
    intro rest acc hw
    have ha : isPySpace a = false := hw a (List.mem_cons_self _ _)
    show pySplitAux (a :: (w' ++ rest)) acc = _
    simp only [pySplitAux]
    rw [if_neg (by simp [ha])]
    rw [ih rest (a :: acc) (fun c hc => hw c (List.mem_cons_of_mem _ hc))]
    simp [List.append_assoc]

theorem pySplit_joinSpace : ∀ (ws : List (List Char)),
    (∀ w ∈ ws, w ≠ []) → (∀ w ∈ ws, ∀ c ∈ w, isPySpace c = false) →
    pySplit (joinSpace ws) = ws := by
  intro ws
  induction ws with
  | nil => intro _ _; rfl
  | cons w t ih =>
    intro hne hfree
    have hwne : w ≠ [] := hne w (List.mem_cons_self _ _)
    have hwfree : ∀ c ∈ w, isPySpace c = false := hfree w (List.mem_cons_self _ _)
    cases t with
    | nil =>
      show pySplit w = [w]
      have : pySplit (w ++ []) = pySplitAux [] (w.reverse ++ []) :=
        pySplitAux_through w [] [] hwfree
      simp only [List.append_nil] at this
      rw [this]
      simp only [pySplitAux]
      rw [if_neg (by simpa using hwne)]
      simp
    | cons w2 t2 =>
      show pySplit (w ++ ' ' :: joinSpace (w2 :: t2)) = w :: w2 :: t2
      have h1 : pySplit (w ++ ' ' :: joinSpace (w2 :: t2)) =
          pySplitAux (' ' :: joinSpace (w2 :: t2)) (w.reverse ++ []) :=
        pySplitAux_through w (' ' :: joinSpace (w2 :: t2)) [] hwfree
      rw [h1]
      simp only [List.append_nil, pySplitAux]
      rw [if_pos (by decide)]
      rw [if_neg (by simpa using hwne)]
      rw [List.reverse_reverse]
      have h2 : pySplitAux (joinSpace (w2 :: t2)) [] = w2 :: t2 :=
        ih (fun x hx => hne x (List.mem_cons_of_mem _ hx))
          (fun x hx => hfree x (List.mem_cons_of_mem _ hx))
      rw [h2]

theorem mem_joinSpace : ∀ (ws : List (List Char)) (c : Char),
    c ∈ joinSpace ws → c = ' ' ∨ ∃ w ∈ ws, c ∈ w := by
  intro ws
  induction ws with
  | nil => intro c hc; simp [joinSpace] at hc
  | cons w t ih =>
    intro c hc
    cases t with
    | nil =>
      exact Or.inr ⟨w, List.mem_cons_self _ _, hc⟩
    | cons w2 t2 =>
      rcases List.mem_append.mp hc with hc | hc
      · exact Or.inr ⟨w, List.mem_cons_self _ _, hc⟩
      · rcases List.mem_cons.mp hc with hc | hc
        · exact Or.inl hc
        · rcases ih c hc with h | ⟨x, hx, hcx⟩
          · exact Or.inl h
          · exact Or.inr ⟨x, List.mem_cons_of_mem _ hx, hcx⟩

theorem joinSpace_ne_nil {w : List Char} {t : List (List Char)} (hw : w ≠ []) :
    joinSpace (w :: t) ≠ [] := by
  cases t with
  | nil => exact hw
  | cons w2 t2 =>
    show w ++ ' ' :: joinSpace (w2 :: t2) ≠ []
    simp

theorem joinSpace_head : ∀ (ws : List (List Char)),
    (∀ w ∈ ws, w ≠ []) →
    ∀ c, (joinSpace ws).head? = some c → ∃ w ∈ ws, c ∈ w := by
  intro ws hne c hc
  cases ws with
  | nil => simp [joinSpace] at hc
  | cons w t =>
    have hwne : w ≠ [] := hne w (List.mem_cons_self _ _)
    cases t with
    | nil =>
      exact ⟨w, List.mem_cons_self _ _, List.mem_of_mem_head? hc⟩
    | cons w2 t2 =>
      cases w with
      | nil => exact absurd rfl hwne
      | cons a w' =>
        simp only [joinSpace, List.cons_append, List.head?_cons, Option.some_inj] at hc
        exact ⟨a :: w', List.mem_cons_self _ _, hc ▸ List.mem_cons_self _ _⟩

theorem joinSpace_getLast : ∀ (ws : List (List Char)),
    (∀ w ∈ ws, w ≠ []) →
    ∀ c, (joinSpace ws).getLast? = some c → ∃ w ∈ ws, c ∈ w := by
  intro ws
  induction ws with
  | nil => intro _ c hc; simp [joinSpace] at hc
  | cons w t ih =>
    intro hne c hc
    cases t with
    | nil =>
      exact ⟨w, List.mem_cons_self _ _, List.mem_of_mem_getLast? hc⟩
    | cons w2 t2 =>
      have h2 : joinSpace (w :: w2 :: t2) = w ++ ' ' :: joinSpace (w2 :: t2) := rfl
      rw [h2, List.getLast?_append_of_ne_nil _ (by simp)] at hc
      have hJ : joinSpace (w2 :: t2) ≠ [] :=
        joinSpace_ne_nil (hne w2 (List.mem_cons_of_mem _ (List.mem_cons_self _ _)))
      rw [List.getLast?_cons] at hc
      cases hg : (joinSpace (w2 :: t2)).getLast? with
      | none =>
        exact absurd (List.getLast?_eq_none_iff.mp hg) hJ
      | some d =>
        rw [hg] at hc
        simp only [Option.getD_some, Option.some_inj] at hc
        subst hc
        rcases ih (fun x hx => hne x (List.mem_cons_of_mem _ hx)) d hg with ⟨x, hx, hdx⟩
        exact ⟨x, List.mem_cons_of_mem _ hx, hdx⟩

theorem dropWhile_eq_self_of_head {p : Char → Bool} {l : List Char}
    (h : ∀ c, l.head? = some c → p c = false) : l.dropWhile p = l := by
  cases l with
  | nil => rfl
  | cons a t =>
    rw [List.dropWhile_cons, if_neg]
    simp [h a rfl]

theorem pyStrip_eq_self {l : List Char}
    (h1 : ∀ c, l.head? = some c → isPySpace c = false)
    (h2 : ∀ c, l.getLast? = some c → isPySpace c = false) : pyStrip l = l := by
  unfold pyStrip
  rw [dropWhile_eq_self_of_head h1]
  rcases List.eq_nil_or_concat l with hl | ⟨L, b, hl⟩
  · subst hl; rfl
  · subst hl
    have hb : isPySpace b = false := h2 b (by rw [List.concat_eq_append, List.getLast?_concat])
    rw [List.concat_eq_append, List.reverse_append]
    simp only [List.reverse_cons, List.reverse_nil, List.nil_append, List.cons_append,
      List.dropWhile_cons]
    rw [if_neg (by simp [hb])]
    simp

theorem collapseWsAux_through : ∀ (w : List Char), w ≠ [] →
    (∀ c ∈ w, isPySpace c = false) →
    ∀ (t : List Char) (b : Bool), collapseWsAux b (w ++ t) = w ++ collapseWsAux false t := by
  intro w
  induction w with
  | nil => intro h; exact absurd rfl h
  | cons a w' ih =>
    intro _ hfree t b
    have ha : isPySpace a = false := hfree a (List.mem_cons_self _ _)
    show collapseWsAux b (a :: (w' ++ t)) = a :: (w' ++ collapseWsAux false t)
    simp only [collapseWsAux]
    rw [if_neg (by simp [ha])]
    cases hw' : w' with
    | nil => simp
    | cons x xs =>
      rw [← hw', ih (by simp [hw']) (fun c hc => hfree c (List.mem_cons_of_mem _ hc)) t false]

theorem collapseWsAux_joinSpace : ∀ (ws : List (List Char)) (b : Bool),
    (∀ w ∈ ws, w ≠ []) → (∀ w ∈ ws, ∀ c ∈ w, isPySpace c = false) →
    collapseWsAux b (joinSpace ws) = joinSpace ws := by
  intro ws
  induction ws with
  | nil => intro b _ _; rfl
  | cons w t ih =>
    intro b hne hfree
    have hwne : w ≠ [] := hne w (List.mem_cons_self _ _)
    have hwfree : ∀ c ∈ w, isPySpace c = false := hfree w (List.mem_cons_self _ _)
    cases t with
    | nil =>
      show collapseWsAux b w = w
      have := collapseWsAux_through w hwne hwfree [] b
      simpa [collapseWsAux] using this
    | cons w2 t2 =>
      show collapseWsAux b (w ++ ' ' :: joinSpace (w2 :: t2)) = w ++ ' ' :: joinSpace (w2 :: t2)
      rw [collapseWsAux_through w hwne hwfree _ b]
      simp only [collapseWsAux]
      rw [if_pos (by decide)]
      rw [ih true (fun x hx => hne x (List.mem_cons_of_mem _ hx))
        (fun x hx => hfree x (List.mem_cons_of_mem _ hx))]
      simp

theorem pyStrip_joinSpace (ws : List (List Char))
    (hne : ∀ w ∈ ws, w ≠ []) (hfree : ∀ w ∈ ws, ∀ c ∈ w, isPySpace c = false) :
    pyStrip (joinSpace ws) = joinSpace ws := by
  refine pyStrip_eq_self ?_ ?_
  · intro c hc
    rcases joinSpace_head ws hne c hc with ⟨w, hw, hcw⟩
    exact hfree w hw c hcw
  · intro c hc
    rcases joinSpace_getLast ws hne c hc with ⟨w, hw, hcw⟩
    exact hfree w hw c hcw

/-- The tokens that survive normalization: the whitespace-split words of the
character-filtered input, minus the flair denylist matches. -/
def cleanTokens (dish_name : List Char) : List (List Char) :=
  (pySplit (dish_name.filter keepChar)).filter (fun w => !(isFlair w))

theorem cleanTokens_ne_nil {d : List Char} : ∀ w ∈ cleanTokens d, w ≠ [] :=
  fun w hw => pySplitAux_ne_nil _ [] w (List.mem_of_mem_filter hw)

theorem cleanTokens_wsfree {d : List Char} :
    ∀ w ∈ cleanTokens d, ∀ c ∈ w, isPySpace c = false :=
  fun w hw => pySplitAux_wsfree _ [] (by simp) w (List.mem_of_mem_filter hw)

theorem clean_dish_name_eq_join (d : List Char) :
    clean_dish_name d = joinSpace (cleanTokens d) := by
  show pyStrip (collapseWs (pyStrip (joinSpace (cleanTokens d)))) = _
  rw [pyStrip_joinSpace _ cleanTokens_ne_nil cleanTokens_wsfree]
  show pyStrip (collapseWsAux false (joinSpace (cleanTokens d))) = _
  rw [collapseWsAux_joinSpace _ false cleanTokens_ne_nil cleanTokens_wsfree]
  exact pyStrip_joinSpace _ cleanTokens_ne_nil cleanTokens_wsfree

theorem pySplit_clean_dish_name (d : List Char) :
    pySplit (clean_dish_name d) = cleanTokens d := by
  rw [clean_dish_name_eq_join]
  exact pySplit_joinSpace _ cleanTokens_ne_nil cleanTokens_wsfree

/-- C2: for every dish name and every injected lookup, `search_recipe_smart`
attempts lookups in exactly the order given by `resolver_candidates` (full
cleaned name, then left-trimmed suffixes, then individual words by descending
length skipping words of length at most 3) and stops at the first non-empty
result; in particular for "Romantic Seared Salmon" with only the standalone
word "Salmon" hitting, the Salmon match is returned after the earlier
candidates missed, and no word of length at most 3 is ever attempted in the
per-word phase. -/
theorem search_recipe_smart_fallback_order {α : Type} (lookup : List Char → Option α)
    (dish_name : List Char) :
    search_recipe_smart lookup dish_name = firstHit lookup (resolver_candidates dish_name) ∧
    (∀ w ∈ wordCandidates (clean_dish_name dish_name), 3 < w.length) ∧
    resolver_candidates "Romantic Seared Salmon".data =
      ["Seared Salmon".data, "Salmon".data, "Seared".data, "Salmon".data] ∧
    search_recipe_smart
        (fun q => if q = "Salmon".data then some 0 else (none : Option Nat))
        "Romantic Seared Salmon".data = some 0 := by
  refine ⟨smart_eq_firstHit lookup dish_name, ?_, by decide, by decide⟩
  intro w hw
  have h := List.of_mem_filter hw
  simpa using h

/-- C6: normalization removes a flair entry exactly when it is a whole
whitespace-delimited token (case-insensitive): the tokens of the output are
precisely the non-flair tokens of the character-filtered input, no output
token matches the denylist, and "Lovebird Stew" is preserved although
"love" itself is denylisted. -/
theorem clean_dish_name_whole_token (dish_name : List Char) :
    pySplit (clean_dish_name dish_name) =
      (pySplit (dish_name.filter keepChar)).filter (fun w => !(isFlair w)) ∧
    (∀ w ∈ pySplit (clean_dish_name dish_name), isFlair w = false) ∧
    clean_dish_name "Lovebird Stew".data = "Lovebird Stew".data ∧
    isFlair "love".data = true := by
  refine ⟨pySplit_clean_dish_name _, ?_, by decide, by decide⟩
  intro w hw
  rw [pySplit_clean_dish_name] at hw
  have h := List.of_mem_filter hw
  simpa using h

/-- C7: `clean_dish_name` is idempotent. -/
theorem clean_dish_name_idempotent (dish_name : List Char) :
    clean_dish_name (clean_dish_name dish_name) = clean_dish_name dish_name := by
  rw [clean_dish_name_eq_join dish_name]
  rw [clean_dish_name_eq_join (joinSpace (cleanTokens dish_name))]
  have hfilter : (joinSpace (cleanTokens dish_name)).filter keepChar
      = joinSpace (cleanTokens dish_name) := by
    refine List.filter_eq_self.mpr ?_
    intro c hc
    rcases mem_joinSpace _ c hc with h | ⟨w, hw, hcw⟩
    · subst h; decide
    · rcases pySplitAux_chars _ [] w (List.mem_of_mem_filter hw) c hcw with h | h
      · exact List.of_mem_filter h
      · simp at h
  have htok : cleanTokens (joinSpace (cleanTokens dish_name)) = cleanTokens dish_name := by
    show (pySplit ((joinSpace (cleanTokens dish_name)).filter keepChar)).filter
        (fun w => !(isFlair w)) = cleanTokens dish_name
    rw [hfilter, pySplit_joinSpace _ cleanTokens_ne_nil cleanTokens_wsfree]
    refine List.filter_eq_self.mpr ?_
    intro w hw
    have hw2 : w ∈ (pySplit (dish_name.filter keepChar)).filter (fun w => !(isFlair w)) := hw
    exact (List.mem_filter.mp hw2).2
  rw [htok]

/-- C8: the resolver is total over any injected lookup: it always returns
either a record or `none`, and if every lookup misses (which also models
network or parse failures) the result is `none`. -/
theorem search_recipe_smart_never_fails {α : Type} (lookup : List Char → Option α)
    (dish_name : List Char) :
    ((∀ q, lookup q = none) → search_recipe_smart lookup dish_name = none) ∧
    (search_recipe_smart lookup dish_name = none ∨
      ∃ r, search_recipe_smart lookup dish_name = some r) := by
  constructor
  · intro h
    rw [smart_eq_firstHit]
    exact firstHit_none lookup h _
  · cases hres : search_recipe_smart lookup dish_name with
    | none => exact Or.inl rfl
    | some r => exact Or.inr ⟨r, rfl⟩

/-- Witness for C8: with an always-missing lookup the resolver returns
`none` on a concrete dish name. -/
theorem search_recipe_smart_never_fails_witness :
    search_recipe_smart (fun _ => (none : Option Nat)) "Romantic Seared Salmon".data
      = none :=
  (search_recipe_smart_never_fails (fun _ => (none : Option Nat))
    "Romantic Seared Salmon".data).1 (fun _ => rfl)

/-- The primary-pass label `MAIN DISH:`. -/
def mainLabel : List Char := "MAIN DISH:".data

/-- The primary-pass label `DRINK:`. -/
def drinkLabel : List Char := "DRINK:".data

/-- The primary-pass label `SNACK:`. -/
def snackLabel : List Char := "SNACK:".data

/-- The underscore label variant `MAIN_DISH:` normalized away first. -/
def mainUnderscoreLabel : List Char := "MAIN_DISH:".data

/-- Python `response.replace("MAIN_DISH:", "MAIN DISH:")`: left-to-right,
non-overlapping replacement. -/
def replaceMainDish : List Char → List Char
  | 'M' :: 'A' :: 'I' :: 'N' :: '_' :: 'D' :: 'I' :: 'S' :: 'H' :: ':' :: rest =>
      mainLabel ++ replaceMainDish rest
  | c :: cs => c :: replaceMainDish cs
  | [] => []

/-- Does `\s*` followed by the literal `stop` match a prefix of the input?
One alternative of the stop group `(?:\s*DRINK:|\s*SNACK:|\n|$)`. -/
def wsThen (stop : List Char) : List Char → Bool
  | [] => stop.isEmpty
  | c :: cs => stop.isPrefixOf (c :: cs) || (isPySpace c && wsThen stop cs)

/-- Does the stop group `(?:\s*L1|\s*L2|\n|$)` match at this position?
Python `$` (no MULTILINE) matches at the end of input and just before a
trailing newline; both cases are covered by `isEmpty` plus the `\n` branch. -/
def termOk (stops : List (List Char)) (rest : List Char) : Bool :=
  stops.any (fun st => wsThen st rest) || rest.isEmpty || rest.head? == some '\n'

/-- The lazy group `(.+?)` followed by the stop group: the shortest non-empty
run of non-newline characters after which the stop group matches. -/
def lazyCapture (stops : List (List Char)) : List Char → Option (List Char)
  | [] => none
  | c :: cs =>
    if c == '\n' then none
    else if termOk stops cs then some [c]
    else (lazyCapture stops cs).map (c :: ·)

/-- The greedy `\s*` before the lazy group, with backtracking: consume as
much whitespace as possible, then retry with less on failure. -/
def greedyWs (stops : List (List Char)) : List Char → Option (List Char)
  | [] => none
  | c :: cs =>
    if isPySpace c then
      match greedyWs stops cs with
      | some cap => some cap
      | none => lazyCapture stops (c :: cs)
    else lazyCapture stops (c :: cs)

/-- `re.search` for a pattern `LABEL\s*(.+?)(?:stops|\n|$)`: scan left to
right for the label; at each occurrence try the rest of the pattern, and on
failure continue scanning from the next position. -/
def reSearch (lab : List Char) (stops : List (List Char)) : List Char → Option (List Char)
  | [] => none
  | c :: cs =>
    if lab.isPrefixOf (c :: cs) then
      match greedyWs stops ((c :: cs).drop lab.length) with
      | some cap => some cap
      | none => reSearch lab stops cs
    else reSearch lab stops cs

/-- Helper for `splitOnNl`, carrying the current (reversed) line. -/
def splitOnNlAux : List Char → List Char → List (List Char)
  | [], acc => [acc.reverse]
  | c :: cs, acc =>
    if c == '\n' then acc.reverse :: splitOnNlAux cs []
    else splitOnNlAux cs (c :: acc)

/-- Python `response.split("\n")` (keeps empty pieces). -/
def splitOnNl (l : List Char) : List (List Char) :=
  splitOnNlAux l []

/-- Python `needle in hay` on strings: substring containment. -/
def containsSub (needle : List Char) : List Char → Bool
  | [] => needle.isEmpty
  | c :: cs => needle.isPrefixOf (c :: cs) || containsSub needle cs

/-- Python `line.split(":")[-1]`: the text after the last colon (the whole
string when there is no colon). -/
def afterLastColon (l : List Char) : List Char :=
  (l.reverse.takeWhile (fun c => !(c == ':'))).reverse

/-- Python `raw.split(sep)[0]`: the text before the first occurrence of
`sep` (the whole string when `sep` is absent). -/
def beforeFirst (sep : List Char) : List Char → List Char
  | [] => []
  | c :: cs => if sep.isPrefixOf (c :: cs) then [] else c :: beforeFirst sep cs

/-- The ordered separator list of the fallback truncation step. -/
def sepList : List (List Char) :=
  [" - ".data, " – ".data, ". ".data, ", a ".data, ", this ".data, ", an ".data]

/-- The fallback truncation: cut at the first listed separator present
(first separator in list order wins), then strip. -/
def sepCut (raw : List Char) : List Char :=
  match sepList.find? (fun sep => containsSub sep raw) with
  | some sep => pyStrip (beforeFirst sep raw)
  | none => raw

/-- The fallback extraction of one (already stripped) line:
`line.split(":")[-1].strip().strip("*").strip()` then separator truncation. -/
def lineVal (line : List Char) : List Char :=
  sepCut (pyStrip (stripStars (pyStrip (afterLastColon line))))

/-- The fallback-pass key `Main Dish`. -/
def mainKey : List Char := "Main Dish".data

/-- The fallback-pass key `Drink`. -/
def drinkKey : List Char := "Drink".data

/-- The fallback-pass key `Snack`. -/
def snackKey : List Char := "Snack".data

/-- The colon, tested by `":" in line`. -/
def colonTok : List Char := ":".data

/-- The extractor result `{main, drink, snack}`. -/
structure DishTriple where
  main : List Char
  drink : List Char
  snack : List Char
deriving DecidableEq

/-- The `if "Main Dish" in line and ":" in line` condition on a raw line
(the loop strips the line first). -/
def mainQ (raw : List Char) : Bool :=
  containsSub mainKey (pyStrip raw) && containsSub colonTok (pyStrip raw)

/-- The `"Drink" in line and ":" in line` condition. -/
def drinkC (raw : List Char) : Bool :=
  containsSub drinkKey (pyStrip raw) && containsSub colonTok (pyStrip raw)

/-- The `"Snack" in line and ":" in line` condition. -/
def snackC (raw : List Char) : Bool :=
  containsSub snackKey (pyStrip raw) && containsSub colonTok (pyStrip raw)

/-- One iteration of the fallback `for line in response.split("\n")` loop:
the `if`/`elif` chain assigns `main` unconditionally, `drink` and `snack`
only when still empty. -/
def fallbackStep (d : DishTriple) (raw : List Char) : DishTriple :=
  if mainQ raw then
    { d with main := lineVal (pyStrip raw) }
  else if drinkC raw && d.drink.isEmpty then
    { d with drink := lineVal (pyStrip raw) }
  else if snackC raw && d.snack.isEmpty then
    { d with snack := lineVal (pyStrip raw) }
  else d

/-- The whole fallback pass over the lines of the response. -/
def fallbackPass (lines : List (List Char)) (d : DishTriple) : DishTriple :=
  lines.foldl fallbackStep d

/-- The final per-field cleanup: `re.sub(r'[^\w\s\'-]', '', x).strip()` then
`re.sub(r'\s+', ' ', x).strip()`. -/
def cleanField (l : List Char) : List Char :=
  pyStrip (collapseWs (pyStrip (l.filter keepChar)))

/-- The final cleanup loop guard `if dishes[key]:`. -/
def cleanGuard (l : List Char) : List Char :=
  if l.isEmpty then l else cleanField l

/-- `extract_dish_name` from app/main.py: normalize the underscore label,
run the three regex searches, fall back to the line scan when `main` is
still empty, then clean every non-empty field. -/
def extract_dish_name (response : List Char) : DishTriple :=
  let normalized := replaceMainDish response
  let mainRes := reSearch mainLabel [drinkLabel, snackLabel] normalized
  let drinkRes := reSearch drinkLabel [snackLabel, mainLabel] normalized
  let snackRes := reSearch snackLabel [mainLabel, drinkLabel] normalized
  let t1 : DishTriple :=
    { main := match mainRes with | some g => pyStrip g | none => []
      drink := match drinkRes with | some g => pyStrip g | none => []
      snack := match snackRes with | some g => pyStrip g | none => [] }
  let t2 := if t1.main.isEmpty then fallbackPass (splitOnNl response) t1 else t1
  { main := cleanGuard t2.main, drink := cleanGuard t2.drink, snack := cleanGuard t2.snack }

example :
    extract_dish_name "MAIN DISH: Spaghetti Carbonara\nDRINK: Chianti\nSNACK: Garlic Bread".data
      = ⟨"Spaghetti Carbonara".data, "Chianti".data, "Garlic Bread".data⟩ := by decide

example :
    extract_dish_name "MAIN DISH: A DRINK: B SNACK: C".data
      = ⟨"A".data, "B".data, "C".data⟩ := by decide

example :
    extract_dish_name "Here you go\n**Main Dish**: Tacos - so good".data
      = ⟨"Tacos".data, [], []⟩ := by decide

example :
    extract_dish_name "no structure at all".data = ⟨[], [], []⟩ := by decide

example :
    extract_dish_name "MAIN_DISH: Kung Pao Chicken\nDRINK: Tea".data
      = ⟨"Kung Pao Chicken".data, "Tea".data, []⟩ := by decide

/-- One fallback-loop iteration of `extract_dish_name` in app/cloud_app.py
(textually identical to the app/main.py loop). -/
def cloudFallbackStep (d : DishTriple) (raw : List Char) : DishTriple :=
  if mainQ raw then
    { d with main := lineVal (pyStrip raw) }
  else if drinkC raw && d.drink.isEmpty then
    { d with drink := lineVal (pyStrip raw) }
  else if snackC raw && d.snack.isEmpty then
    { d with snack := lineVal (pyStrip raw) }
  else d

/-- The fallback pass of the app/cloud_app.py extractor. -/
def cloudFallbackPass (lines : List (List Char)) (d : DishTriple) : DishTriple :=
  lines.foldl cloudFallbackStep d

/-- The final cleanup guard of the app/cloud_app.py extractor. -/
def cloudCleanGuard (l : List Char) : List Char :=
  if l.isEmpty then l else cleanField l

/-- `extract_dish_name` from app/cloud_app.py, whose body is textually
identical to the app/main.py version. -/
def cloud_extract_dish_name (response : List Char) : DishTriple :=
  let normalized := replaceMainDish response
  let mainRes := reSearch mainLabel [drinkLabel, snackLabel] normalized
  let drinkRes := reSearch drinkLabel [snackLabel, mainLabel] normalized
  let snackRes := reSearch snackLabel [mainLabel, drinkLabel] normalized
  let t1 : DishTriple :=
    { main := match mainRes with | some g => pyStrip g | none => []
      drink := match drinkRes with | some g => pyStrip g | none => []
      snack := match snackRes with | some g => pyStrip g | none => [] }
  let t2 := if t1.main.isEmpty then cloudFallbackPass (splitOnNl response) t1 else t1
  { main := cloudCleanGuard t2.main, drink := cloudCleanGuard t2.drink,
    snack := cloudCleanGuard t2.snack }

/-- C9: the extractors of the two app variants are extensionally equal. -/
theorem extract_dish_name_variants_agree (response : List Char) :
    extract_dish_name response = cloud_extract_dish_name response := rfl

theorem mem_pyStrip {c : Char} {l : List Char} (h : c ∈ pyStrip l) : c ∈ l := by
  unfold pyStrip at h
  rw [List.mem_reverse] at h
  have h2 := (List.dropWhile_sublist _).subset h
  rw [List.mem_reverse] at h2
  exact (List.dropWhile_sublist _).subset h2

theorem mem_collapseWsAux : ∀ (l : List Char) (b : Bool) (c : Char),
    c ∈ collapseWsAux b l → c = ' ' ∨ c ∈ l := by
  intro l
  induction l with
  | nil => intro b c hc; simp [collapseWsAux] at hc
  | cons a t ih =>
    intro b c hc
    simp only [collapseWsAux] at hc
    by_cases hs : isPySpace a = true
    · rw [if_pos hs] at hc
      by_cases hb : b = true
      · rw [if_pos hb] at hc
        rcases ih true c hc with h | h
        · exact Or.inl h
        · exact Or.inr (List.mem_cons_of_mem _ h)
      · rw [if_neg hb] at hc
        rcases List.mem_cons.mp hc with h | h
        · exact Or.inl h
        · rcases ih true c h with h2 | h2
          · exact Or.inl h2
          · exact Or.inr (List.mem_cons_of_mem _ h2)
    · rw [if_neg hs] at hc
      rcases List.mem_cons.mp hc with h | h
      · exact Or.inr (h ▸ List.mem_cons_self _ _)
      · rcases ih false c h with h2 | h2
        · exact Or.inl h2
        · exact Or.inr (List.mem_cons_of_mem _ h2)

theorem cleanGuard_chars (l : List Char) (c : Char) (h : c ∈ cleanGuard l) :
    keepChar c = true := by
  unfold cleanGuard at h
  by_cases he : l.isEmpty = true
  · rw [if_pos he] at h
    rw [List.isEmpty_iff.mp he] at h
    simp at h
  · rw [if_neg he] at h
    unfold cleanField at h
    have h2 := mem_pyStrip h
    rcases mem_collapseWsAux _ false c h2 with h3 | h3
    · subst h3; decide
    · exact List.of_mem_filter (mem_pyStrip h3)

/-- The character set named by the spec sentence behind C5: letters, digits,
whitespace, apostrophe, hyphen (written from the claim; note it omits the
underscore). -/
def claimedChar (c : Char) : Bool :=
  c.isAlpha || c.isDigit || isPySpace c || c == '\'' || c == '-'

/-- Counterexample to C5 as stated: on `MAIN DISH: a_b` the extractor keeps
the underscore (the cleanup regex keeps all of `\w`, which contains `_`),
so an output field contains a character outside the claimed set. -/
theorem extract_dish_name_underscore_cex :
    '_' ∈ (extract_dish_name "MAIN DISH: a_b".data).main ∧
      claimedChar '_' = false := by decide

/-- C5 amended: every character of every output field of
`extract_dish_name` is in the kept class: letters, digits, underscore
(the regex class `\w`), whitespace, apostrophe, hyphen. -/
theorem extract_dish_name_chars (response : List Char) :
    (∀ c ∈ (extract_dish_name response).main, keepChar c = true) ∧
    (∀ c ∈ (extract_dish_name response).drink, keepChar c = true) ∧
    (∀ c ∈ (extract_dish_name response).snack, keepChar c = true) := by
  refine ⟨fun c hc => ?_, fun c hc => ?_, fun c hc => ?_⟩ <;>
    exact cleanGuard_chars _ c hc

/-- Witness for the amended C5 at a concrete response and character. -/
theorem extract_dish_name_chars_witness : keepChar 'A' = true :=
  (extract_dish_name_chars "MAIN DISH: A DRINK: B SNACK: C".data).1 'A' (by decide)

/-- UTF-8 encoding of a code point (Python strings are encoded to UTF-8
before percent-encoding). -/
def utf8Bytes (n : Nat) : List Nat :=
  if n < 128 then [n]
  else if n < 2048 then [192 + n / 64, 128 + n % 64]
  else if n < 65536 then [224 + n / 4096, 128 + n / 64 % 64, 128 + n % 64]
  else [240 + n / 262144, 128 + n / 4096 % 64, 128 + n / 64 % 64, 128 + n % 64]

/-- Uppercase hexadecimal digit, as produced by `urllib.parse.quote`. -/
def hexDigitUpper (n : Nat) : Char :=
  if n < 10 then Char.ofNat (48 + n) else Char.ofNat (55 + n)

/-- Percent-encoding of one byte: `%XX`. -/
def pctEncodeByte (b : Nat) : List Char :=
  ['%', hexDigitUpper (b / 16), hexDigitUpper (b % 16)]

/-- The characters `urllib.parse.quote` leaves unencoded with the default
`safe='/'`: unreserved ASCII plus the slash. -/
def quoteSafe (c : Char) : Bool :=
  c.isAlpha || c.isDigit || c == '_' || c == '.' || c == '-' || c == '~' || c == '/'

/-- `urllib.parse.quote(s)` with its default `safe='/'`. -/
def pyQuote (l : List Char) : List Char :=
  (l.map (fun c =>
    if quoteSafe c then [c] else ((utf8Bytes c.toNat).map pctEncodeByte).flatten)).flatten

example : pyQuote "Seared Salmon".data = "Seared%20Salmon".data := by decide

/-- The three order links returned by `get_order_links` (the Python dict
keyed by the three platform names). -/
structure OrderLinks where
  uberEats : List Char
  lieferando : List Char
  justEat : List Char
deriving DecidableEq

/-- `get_order_links` from app/main.py (identical in app/cloud_app.py):
clean the dish name, percent-encode it, and build the three search URLs. -/
def get_order_links (dish_name : List Char) : OrderLinks :=
  let cleaned_dish_name := clean_dish_name dish_name
  let encoded := pyQuote cleaned_dish_name
  { uberEats := "https://www.ubereats.com/search?q=".data ++ encoded
    lieferando := "https://www.lieferando.de/en/delivery/food/".data ++ encoded
    justEat := "https://www.just-eat.co.uk/search?q=".data ++ encoded }

/-- The tokens of a normalized name are never flair entries (shared by the
C6 and C10 statements). -/
theorem clean_tokens_not_flair (dish_name : List Char) :
    ∀ w ∈ pySplit (clean_dish_name dish_name), isFlair w = false := by
  intro w hw
  rw [pySplit_clean_dish_name] at hw
  have h := (List.mem_filter.mp hw).2
  simpa using h

/-- C10: the three generated links consist of the three fixed platform
prefixes followed by the percent-encoding of the cleaned dish name (not of
the raw name), and no token of the encoded name is a flair entry; on the
concrete name "Romantic Pizza!" the flair word and the stripped `!` never
reach the URL. -/
theorem get_order_links_encode (dish_name : List Char) :
    (get_order_links dish_name).uberEats =
        "https://www.ubereats.com/search?q=".data ++ pyQuote (clean_dish_name dish_name) ∧
    (get_order_links dish_name).lieferando =
        "https://www.lieferando.de/en/delivery/food/".data ++ pyQuote (clean_dish_name dish_name) ∧
    (get_order_links dish_name).justEat =
        "https://www.just-eat.co.uk/search?q=".data ++ pyQuote (clean_dish_name dish_name) ∧
    (∀ w ∈ pySplit (clean_dish_name dish_name), isFlair w = false) ∧
    (get_order_links "Romantic Pizza!".data).uberEats =
        "https://www.ubereats.com/search?q=Pizza".data := by
  exact ⟨rfl, rfl, rfl, clean_tokens_not_flair dish_name, by decide⟩

/-- Counterexample to C1 as stated: the fallback line scan is reached (no
uppercase `MAIN DISH:` label, so the primary pass leaves `main` empty), two
distinct lines qualify for `main` (`Main Dish` plus colon), the first gives
`Pizza`, yet the result is `Tacos` from the second line: the `main` branch
of the chain has no emptiness guard, so the last qualifying line wins. -/
theorem extract_dish_name_overwrite_cex :
    extract_dish_name "Main Dish: Pizza\nMain Dish: Tacos".data
        = ⟨"Tacos".data, [], []⟩ ∧
      ("Tacos".data : List Char) ≠ "Pizza".data := by decide

theorem getLast?_cons_of_some {α : Type} {t : List α} {x : α} (a : α)
    (h : t.getLast? = some x) : (a :: t).getLast? = some x := by
  cases t with
  | nil => simp at h
  | cons b t2 => rw [List.getLast?_cons_cons]; exact h

theorem getLast?_cons_of_none {α : Type} {t : List α} (a : α)
    (h : t.getLast? = none) : (a :: t).getLast? = some a := by
  have ht : t = [] := List.getLast?_eq_none_iff.mp h
  subst ht
  simp

theorem fallbackStep_main_pos {d : DishTriple} {raw : List Char} (h : mainQ raw = true) :
    fallbackStep d raw = { d with main := lineVal (pyStrip raw) } := by
  unfold fallbackStep
  rw [if_pos h]

theorem fallbackStep_main_neg {d : DishTriple} {raw : List Char} (h : mainQ raw = false) :
    (fallbackStep d raw).main = d.main := by
  unfold fallbackStep
  rw [if_neg (by simp [h])]
  split
  · rfl
  · split
    · rfl
    · rfl

theorem fallbackStep_drink_set {d : DishTriple} {raw : List Char} (hm : mainQ raw = false)
    (hd : drinkC raw = true) (he : d.drink.isEmpty = true) :
    fallbackStep d raw = { d with drink := lineVal (pyStrip raw) } := by
  unfold fallbackStep
  rw [if_neg (by simp [hm]), if_pos (by simp [hd, he])]

theorem fallbackStep_drink_pres {d : DishTriple} {raw : List Char}
    (h : mainQ raw = true ∨ drinkC raw = false ∨ d.drink.isEmpty = false) :
    (fallbackStep d raw).drink = d.drink := by
  unfold fallbackStep
  by_cases hm : mainQ raw = true
  · rw [if_pos hm]
  · rw [if_neg hm]
    have h2 : (drinkC raw && d.drink.isEmpty) = false := by
      rcases h with h | h | h
      · exact absurd h hm
      · simp [h]
      · simp [h]
    rw [if_neg (by simp [h2])]
    split
    · rfl
    · rfl

theorem fallbackStep_snack_set {d : DishTriple} {raw : List Char} (hm : mainQ raw = false)
    (hdc : (drinkC raw && d.drink.isEmpty) = false) (hs : snackC raw = true)
    (he : d.snack.isEmpty = true) :
    fallbackStep d raw = { d with snack := lineVal (pyStrip raw) } := by
  unfold fallbackStep
  rw [if_neg (by simp [hm]), if_neg (by simp [hdc]), if_pos (by simp [hs, he])]

theorem fallbackStep_snack_pres {d : DishTriple} {raw : List Char}
    (h : mainQ raw = true ∨ snackC raw = false ∨ d.snack.isEmpty = false) :
    (fallbackStep d raw).snack = d.snack := by
  unfold fallbackStep
  by_cases hm : mainQ raw = true
  · rw [if_pos hm]
  · rw [if_neg hm]
    by_cases h2 : (drinkC raw && d.drink.isEmpty) = true
    · rw [if_pos (by simp [h2])]
    · rw [if_neg h2]
      have h3 : (snackC raw && d.snack.isEmpty) = false := by
        rcases h with h | h | h
        · exact absurd h hm
        · simp [h]
        · simp [h]
      rw [if_neg (by simp [h3])]

/-- First non-empty value in a list of extracted values (empty if none):
what the emptiness-guarded assignments of the fallback loop compute. -/
def firstNonEmpty : List (List Char) → List Char
  | [] => []
  | v :: vs => if v.isEmpty then firstNonEmpty vs else v

/-- The extracted values of the lines reaching the `drink` branch of the
fallback chain: lines with `Drink` and a colon that do not main-qualify. -/
def drinkVals (lines : List (List Char)) : List (List Char) :=
  (lines.filter (fun l => !(mainQ l) && drinkC l)).map (fun l => lineVal (pyStrip l))

/-- The extracted values of the lines reaching the `snack` branch of the
fallback chain: lines with `Snack` and a colon qualifying for neither
`main` nor `drink`. -/
def snackVals (lines : List (List Char)) : List (List Char) :=
  (lines.filter (fun l => !(mainQ l) && !(drinkC l) && snackC l)).map
    (fun l => lineVal (pyStrip l))

/-- The value of the last main-qualifying line (empty if none). -/
def lastMainVal (lines : List (List Char)) : List Char :=
  match (lines.filter mainQ).getLast? with
  | some l => lineVal (pyStrip l)
  | none => []

theorem fallbackPass_main : ∀ (lines : List (List Char)) (d : DishTriple),
    (fallbackPass lines d).main =
      match (lines.filter mainQ).getLast? with
      | some l => lineVal (pyStrip l)
      | none => d.main := by
  intro lines
  induction lines with
  | nil => intro d; rfl
  | cons l ls ih =>
    intro d
    have hfold : fallbackPass (l :: ls) d = fallbackPass ls (fallbackStep d l) := rfl
    rw [hfold, ih (fallbackStep d l)]
    by_cases hm : mainQ l = true
    · rw [List.filter_cons_of_pos hm]
      cases hg : (ls.filter mainQ).getLast? with
      | some x => rw [getLast?_cons_of_some l hg]
      | none =>
        rw [getLast?_cons_of_none l hg, fallbackStep_main_pos hm]
    · have hm' : mainQ l = false := by simpa using hm
      rw [List.filter_cons_of_neg (by simp [hm']), fallbackStep_main_neg hm']

theorem fallbackPass_drink : ∀ (lines : List (List Char)) (d : DishTriple),
    (fallbackPass lines d).drink =
      if d.drink.isEmpty then firstNonEmpty (drinkVals lines) else d.drink := by
  intro lines
  induction lines with
  | nil =>
    intro d
    by_cases hd : d.drink.isEmpty = true
    · rw [if_pos hd]
      exact List.isEmpty_iff.mp hd
    · rw [if_neg hd]
      rfl
  | cons l ls ih =>
    intro d
    have hfold : fallbackPass (l :: ls) d = fallbackPass ls (fallbackStep d l) := rfl
    rw [hfold, ih (fallbackStep d l)]
    by_cases hm : mainQ l = true
    · have hpres : (fallbackStep d l).drink = d.drink := by
        rw [fallbackStep_main_pos hm]
      have hfil : drinkVals (l :: ls) = drinkVals ls := by
        unfold drinkVals
        rw [List.filter_cons_of_neg (by simp [hm])]
      rw [hpres, hfil]
    · have hm' : mainQ l = false := by simpa using hm
      by_cases hd : drinkC l = true
      · by_cases he : d.drink.isEmpty = true
        · have hfil : drinkVals (l :: ls) = lineVal (pyStrip l) :: drinkVals ls := by
            unfold drinkVals
            rw [List.filter_cons_of_pos (by simp [hm', hd])]
            rfl
          rw [fallbackStep_drink_set hm' hd he, hfil, if_pos he]
          generalize lineVal (pyStrip l) = v
          rfl
        · have he' : d.drink.isEmpty = false := by simpa using he
          rw [fallbackStep_drink_pres (Or.inr (Or.inr he')), if_neg he, if_neg he]
      · have hd' : drinkC l = false := by simpa using hd
        have hfil : drinkVals (l :: ls) = drinkVals ls := by
          unfold drinkVals
          rw [List.filter_cons_of_neg (by simp [hd'])]
        rw [fallbackStep_drink_pres (Or.inr (Or.inl hd')), hfil]

theorem fallbackPass_snack : ∀ (lines : List (List Char)) (d : DishTriple),
    (∀ l ∈ lines, ¬(drinkC l = true ∧ snackC l = true)) →
    (fallbackPass lines d).snack =
      if d.snack.isEmpty then firstNonEmpty (snackVals lines) else d.snack := by
  intro lines
  induction lines with
  | nil =>
    intro d _
    by_cases hd : d.snack.isEmpty = true
    · rw [if_pos hd]
      exact List.isEmpty_iff.mp hd
    · rw [if_neg hd]
      rfl
  | cons l ls ih =>
    intro d hclean
    have hfold : fallbackPass (l :: ls) d = fallbackPass ls (fallbackStep d l) := rfl
    have hcl_tail : ∀ x ∈ ls, ¬(drinkC x = true ∧ snackC x = true) :=
      fun x hx => hclean x (List.mem_cons_of_mem _ hx)
    rw [hfold, ih (fallbackStep d l) hcl_tail]
    by_cases hm : mainQ l = true
    · have hpres : (fallbackStep d l).snack = d.snack := by
        rw [fallbackStep_main_pos hm]
      have hfil : snackVals (l :: ls) = snackVals ls := by
        unfold snackVals
        rw [List.filter_cons_of_neg (by simp [hm])]
      rw [hpres, hfil]
    · have hm' : mainQ l = false := by simpa using hm
      by_cases hdc : drinkC l = true
      · have hsc : snackC l = false := by
          rcases Bool.eq_false_or_eq_true (snackC l) with h | h
          · exact absurd ⟨hdc, h⟩ (hclean l (List.mem_cons_self _ _))
          · exact h
        have hfil : snackVals (l :: ls) = snackVals ls := by
          unfold snackVals
          rw [List.filter_cons_of_neg (by simp [hsc])]
        rw [fallbackStep_snack_pres (Or.inr (Or.inl hsc)), hfil]
      · have hdc' : drinkC l = false := by simpa using hdc
        by_cases hsc : snackC l = true
        · by_cases he : d.snack.isEmpty = true
          · have hfil : snackVals (l :: ls) = lineVal (pyStrip l) :: snackVals ls := by
              unfold snackVals
              rw [List.filter_cons_of_pos (by simp [hm', hdc', hsc])]
              rfl
            rw [fallbackStep_snack_set hm' (by simp [hdc']) hsc he, hfil, if_pos he]
            generalize lineVal (pyStrip l) = v
            rfl
          · have he' : d.snack.isEmpty = false := by simpa using he
            rw [fallbackStep_snack_pres (Or.inr (Or.inr he')), if_neg he, if_neg he]
        · have hsc' : snackC l = false := by simpa using hsc
          have hfil : snackVals (l :: ls) = snackVals ls := by
            unfold snackVals
            rw [List.filter_cons_of_neg (by simp [hsc'])]
          rw [fallbackStep_snack_pres (Or.inr (Or.inl hsc')), hfil]

/-- C1 amended: when the primary pass finds none of the three labels, the
fallback pass assigns `drink` from the first line reaching its branch
(`Drink` plus colon, not main-qualifying) and `snack` likewise (on
responses where no line carries both `Drink` and `Snack` conditions), each
at most once with empty values skipped; but `main`, whose branch has no
emptiness guard, is taken from the LAST main-qualifying line. -/
theorem extract_dish_name_fallback_assignment (response : List Char)
    (hm : reSearch mainLabel [drinkLabel, snackLabel] (replaceMainDish response) = none)
    (hd : reSearch drinkLabel [snackLabel, mainLabel] (replaceMainDish response) = none)
    (hs : reSearch snackLabel [mainLabel, drinkLabel] (replaceMainDish response) = none)
    (hclean : ∀ l ∈ splitOnNl response, ¬(drinkC l = true ∧ snackC l = true)) :
    extract_dish_name response =
      { main := cleanGuard (lastMainVal (splitOnNl response)),
        drink := cleanGuard (firstNonEmpty (drinkVals (splitOnNl response))),
        snack := cleanGuard (firstNonEmpty (snackVals (splitOnNl response))) } := by
  have h1 : extract_dish_name response =
      { main := cleanGuard (fallbackPass (splitOnNl response) ⟨[], [], []⟩).main,
        drink := cleanGuard (fallbackPass (splitOnNl response) ⟨[], [], []⟩).drink,
        snack := cleanGuard (fallbackPass (splitOnNl response) ⟨[], [], []⟩).snack } := by
    simp only [extract_dish_name]
    rw [hm, hd, hs]
    rfl
  rw [h1, fallbackPass_main, fallbackPass_drink,
    fallbackPass_snack (splitOnNl response) _ hclean]
  rfl

/-- Witness for the amended C1 on a concrete multi-line fallback response:
two main-qualifying lines (last wins: Tacos), one drink line, two snack
lines (first wins: Chips). -/
theorem extract_dish_name_fallback_assignment_witness :
    extract_dish_name
        "Main Dish: Pizza\nMain Dish: Tacos\nDrink: Wine\nSnack: Chips\nSnack: Nuts".data
      = ⟨"Tacos".data, "Wine".data, "Chips".data⟩ :=
  (extract_dish_name_fallback_assignment
      "Main Dish: Pizza\nMain Dish: Tacos\nDrink: Wine\nSnack: Chips\nSnack: Nuts".data
      (by decide) (by decide) (by decide) (by decide)).trans (by decide)

theorem wsThen_cons (stop : List Char) (c : Char) (cs : List Char) :
    wsThen stop (c :: cs) = (stop.isPrefixOf (c :: cs) || (isPySpace c && wsThen stop cs)) :=
  rfl

theorem lazyCapture_cons (stops : List (List Char)) (c : Char) (cs : List Char) :
    lazyCapture stops (c :: cs) =
      if c == '\n' then none
      else if termOk stops cs then some [c]
      else (lazyCapture stops cs).map (c :: ·) :=
  rfl

theorem greedyWs_cons (stops : List (List Char)) (c : Char) (cs : List Char) :
    greedyWs stops (c :: cs) =
      if isPySpace c then
        match greedyWs stops cs with
        | some cap => some cap
        | none => lazyCapture stops (c :: cs)
      else lazyCapture stops (c :: cs) :=
  rfl

theorem reSearch_cons (lab : List Char) (stops : List (List Char)) (c : Char)
    (cs : List Char) :
    reSearch lab stops (c :: cs) =
      if lab.isPrefixOf (c :: cs) then
        match greedyWs stops ((c :: cs).drop lab.length) with
        | some cap => some cap
        | none => reSearch lab stops cs
      else reSearch lab stops cs :=
  rfl

theorem isPre_append_self : ∀ (L t : List Char), L.isPrefixOf (L ++ t) = true := by
  intro L t
  induction L with
  | nil => cases t <;> rfl
  | cons a l ih => simp [List.isPrefixOf, ih]

theorem mem_of_isPre : ∀ {L xs : List Char}, L.isPrefixOf xs = true →
    ∀ c ∈ L, c ∈ xs := by
  intro L
  induction L with
  | nil => intro xs _ c hc; simp at hc
  | cons a l ih =>
    intro xs h c hc
    cases xs with
    | nil => simp [List.isPrefixOf] at h
    | cons b t =>
      simp only [List.isPrefixOf, Bool.and_eq_true, beq_iff_eq] at h
      rcases List.mem_cons.mp hc with hc | hc
      · exact hc ▸ h.1 ▸ List.mem_cons_self _ _
      · exact List.mem_cons_of_mem _ (ih h.2 c hc)

theorem isPre_append_split : ∀ (xs : List Char) {L W : List Char},
    L.isPrefixOf (xs ++ W) = true →
    L.isPrefixOf xs = true ∨
      (xs.length < L.length ∧ (L.drop xs.length).isPrefixOf W = true) := by
  intro xs
  induction xs with
  | nil =>
    intro L W h
    cases L with
    | nil => exact Or.inl rfl
    | cons a l => exact Or.inr ⟨by simp, by simpa using h⟩
  | cons x xs' ih =>
    intro L W h
    cases L with
    | nil => exact Or.inl rfl
    | cons a l =>
      simp only [List.cons_append, List.isPrefixOf, Bool.and_eq_true] at h
      rcases ih h.2 with h2 | ⟨hlt, h2⟩
      · exact Or.inl (by simp [List.isPrefixOf, h.1, h2])
      · refine Or.inr ⟨by simpa using Nat.succ_lt_succ hlt, ?_⟩
        simpa using h2

theorem label_not_prefix {L ys W : List Char} (hc : ':' ∈ L) (hys : ys ≠ [])
    (hgood : ∀ c ∈ ys, goodChar c = true ∨ c = ' ')
    (HW : ∀ n, 0 < n → n < L.length → (L.drop n).isPrefixOf W = false) :
    L.isPrefixOf (ys ++ W) = false := by
  cases hp : L.isPrefixOf (ys ++ W) with
  | false => rfl
  | true =>
    exfalso
    rcases isPre_append_split ys hp with h | ⟨hlt, h⟩
    · have hmem : ':' ∈ ys := mem_of_isPre h ':' hc
      rcases hgood ':' hmem with hg | hg
      · exact absurd hg (by decide)
      · exact absurd hg (by decide)
    · have h0 : 0 < ys.length := List.length_pos.mpr hys
      rw [HW ys.length h0 hlt] at h
      exact Bool.false_ne_true h

theorem drop_ne_nil {L : List Char} {n : Nat} (h : n < L.length) : L.drop n ≠ [] := by
  intro hd
  have := List.drop_eq_nil_iff.mp hd
  omega

theorem skipField {L : List Char} (hc : ':' ∈ L) (fld W : List Char)
    (hf : ∀ c ∈ fld, goodChar c = true ∨ c = ' ')
    (HW : ∀ n, 0 < n → n < L.length → (L.drop n).isPrefixOf W = false) :
    ∀ n, n < fld.length → L.isPrefixOf (fld.drop n ++ W) = false := by
  intro n hn
  refine label_not_prefix hc (drop_ne_nil hn) ?_ HW
  intro c hcc
  exact hf c (List.drop_subset _ _ hcc)

theorem wsThen_eq_false {L : List Char} (hc : ':' ∈ L) :
    ∀ (xs : List Char) {W : List Char}, xs ≠ [] →
    (∀ c ∈ xs, goodChar c = true ∨ c = ' ') →
    xs.getLast? ≠ some ' ' →
    (∀ n, 0 < n → n < L.length → (L.drop n).isPrefixOf W = false) →
    wsThen L (xs ++ W) = false := by
  intro xs
  induction xs with
  | nil => intro W h; exact absurd rfl h
  | cons x xs' ih =>
    intro W _ hgood hlast HW
    have hnp : L.isPrefixOf (x :: (xs' ++ W)) = false :=
      label_not_prefix hc (by simp) hgood HW
    show wsThen L (x :: (xs' ++ W)) = false
    rw [wsThen_cons, hnp]
    simp only [Bool.false_or]
    cases xs' with
    | nil =>
      have hx : goodChar x = true := by
        rcases hgood x (List.mem_cons_self _ _) with h | h
        · exact h
        · exact absurd (by rw [h]; rfl) hlast
      simp [goodChar_not_ws hx]
    | cons y ys' =>
      by_cases hx : isPySpace x = true
      · have hlast' : (y :: ys').getLast? ≠ some ' ' := by
          rwa [List.getLast?_cons_cons] at hlast
        have hih : wsThen L ((y :: ys') ++ W) = false :=
          ih (by simp) (fun c hcc => hgood c (List.mem_cons_of_mem _ hcc)) hlast' HW
        rw [hih]
        simp
      · simp [hx]

theorem termOk_eq_false {stops : List (List Char)} {xs W : List Char}
    (hstops : ∀ L ∈ stops, ':' ∈ L ∧
      ∀ n, 0 < n → n < L.length → (L.drop n).isPrefixOf W = false)
    (hxs : xs ≠ []) (hgood : ∀ c ∈ xs, goodChar c = true ∨ c = ' ')
    (hlast : xs.getLast? ≠ some ' ') :
    termOk stops (xs ++ W) = false := by
  cases xs with
  | nil => exact absurd rfl hxs
  | cons x xs' =>
    have hany : stops.any (fun st => wsThen st (x :: (xs' ++ W))) = false := by
      rw [List.any_eq_false]
      intro L hL
      rcases hstops L hL with ⟨hc, HW⟩
      simp only [Bool.not_eq_true]
      exact wsThen_eq_false hc (x :: xs') (by simp) hgood hlast HW
    have hx : x ≠ '\n' := by
      rcases hgood x (List.mem_cons_self _ _) with h | h
      · intro he
        rw [he] at h
        exact absurd h (by decide)
      · intro he
        rw [he] at h
        exact absurd h (by decide)
    show termOk stops (x :: (xs' ++ W)) = false
    simp [termOk, hany, hx]

theorem lazyCapture_exact {stops : List (List Char)} :
    ∀ (A : List Char) {W : List Char}, A ≠ [] →
    (∀ c ∈ A, goodChar c = true ∨ c = ' ') →
    A.getLast? ≠ some ' ' →
    (∀ L ∈ stops, ':' ∈ L ∧
      ∀ n, 0 < n → n < L.length → (L.drop n).isPrefixOf W = false) →
    termOk stops W = true →
    lazyCapture stops (A ++ W) = some A := by
  intro A
  induction A with
  | nil => intro W h; exact absurd rfl h
  | cons a A' ih =>
    intro W _ hgood hlast hstops hterm
    have ha : ¬(a == '\n') = true := by
      rcases hgood a (List.mem_cons_self _ _) with h | h
      · simp only [beq_iff_eq]
        intro he
        rw [he] at h
        exact absurd h (by decide)
      · simp [h]
    show lazyCapture stops (a :: (A' ++ W)) = some (a :: A')
    rw [lazyCapture_cons, if_neg ha]
    cases A' with
    | nil =>
      rw [if_pos (show termOk stops ([] ++ W) = true from hterm)]
    | cons b B =>
      have hlast' : (b :: B).getLast? ≠ some ' ' := by
        rwa [List.getLast?_cons_cons] at hlast
      have hterm2 : termOk stops (b :: (B ++ W)) = false := by
        have h5 : termOk stops ((b :: B) ++ W) = false :=
          termOk_eq_false hstops (by simp)
            (fun c hcc => hgood c (List.mem_cons_of_mem _ hcc)) hlast'
        rwa [show (b :: B) ++ W = b :: (B ++ W) from rfl] at h5
      rw [if_neg (by simp [hterm2])]
      have hih : lazyCapture stops (b :: (B ++ W)) = some (b :: B) := by
        have := ih (by simp) (fun c hcc => hgood c (List.mem_cons_of_mem _ hcc))
          hlast' hstops hterm
        rwa [show (b :: B) ++ W = b :: (B ++ W) from rfl] at this
      rw [show (b :: B) ++ W = b :: (B ++ W) from rfl, hih]
      rfl

theorem greedyWs_field {stops : List (List Char)} {A W : List Char}
    (hA : A ≠ []) (hgood : ∀ c ∈ A, goodChar c = true ∨ c = ' ')
    (hhead : A.head? ≠ some ' ') (hlast : A.getLast? ≠ some ' ')
    (hstops : ∀ L ∈ stops, ':' ∈ L ∧
      ∀ n, 0 < n → n < L.length → (L.drop n).isPrefixOf W = false)
    (hterm : termOk stops W = true) :
    greedyWs stops (' ' :: (A ++ W)) = some A := by
  cases A with
  | nil => exact absurd rfl hA
  | cons a A' =>
    have ha : goodChar a = true := by
      rcases hgood a (List.mem_cons_self _ _) with h | h
      · exact h
      · exact absurd (by rw [h]; rfl) hhead
    have hinner : greedyWs stops (a :: (A' ++ W)) = some (a :: A') := by
      rw [greedyWs_cons, if_neg (by simp [goodChar_not_ws ha])]
      exact lazyCapture_exact (a :: A') (by simp) hgood hlast hstops hterm
    show greedyWs stops (' ' :: ((a :: A') ++ W)) = some (a :: A')
    rw [show (a :: A') ++ W = a :: (A' ++ W) from rfl]
    rw [greedyWs_cons, if_pos (by decide : isPySpace ' ' = true), hinner]

theorem reSearch_found {lab : List Char} {stops : List (List Char)} {s cap : List Char}
    (h1 : lab.isPrefixOf s = true) (h2 : greedyWs stops (s.drop lab.length) = some cap) :
    reSearch lab stops s = some cap := by
  cases s with
  | nil =>
    cases lab with
    | nil => simp [greedyWs] at h2
    | cons a l => simp [List.isPrefixOf] at h1
  | cons c cs =>
    rw [reSearch_cons, if_pos h1, h2]

theorem reSearch_skip_append {lab : List Char} {stops : List (List Char)} :
    ∀ (xs : List Char) {rest : List Char},
    (∀ n, n < xs.length → lab.isPrefixOf (xs.drop n ++ rest) = false) →
    reSearch lab stops (xs ++ rest) = reSearch lab stops rest := by
  intro xs
  induction xs with
  | nil => intro rest _; rfl
  | cons x xs' ih =>
    intro rest h
    show reSearch lab stops (x :: (xs' ++ rest)) = reSearch lab stops rest
    have h0 : lab.isPrefixOf (x :: (xs' ++ rest)) = false := h 0 (by simp)
    rw [reSearch_cons, if_neg (by simp [h0])]
    refine ih ?_
    intro n hn
    have := h (n + 1) (by simpa using Nat.succ_lt_succ hn)
    simpa using this

theorem termOk_nl (stops : List (List Char)) (Z : List Char) :
    termOk stops ('\n' :: Z) = true := by
  simp [termOk]

theorem termOk_nil (stops : List (List Char)) :
    termOk stops ([] : List Char) = true := by
  simp [termOk]

theorem wsThen_self {L : List Char} (Z : List Char) :
    wsThen L (' ' :: (L ++ Z)) = true := by
  cases L with
  | nil => rfl
  | cons a t =>
    rw [wsThen_cons]
    have h2 : wsThen (a :: t) ((a :: t) ++ Z) = true := by
      cases ht : (a :: t) ++ Z with
      | nil => simp at ht
      | cons b bs =>
        rw [wsThen_cons, ← ht, isPre_append_self]
        simp
    rw [h2]
    simp [isPySpace]

theorem termOk_space_label {stops : List (List Char)} {L : List Char} (Z : List Char)
    (hmem : L ∈ stops) :
    termOk stops (' ' :: (L ++ Z)) = true := by
  have h2 : stops.any (fun st => wsThen st (' ' :: (L ++ Z))) = true :=
    List.any_eq_true.mpr ⟨L, hmem, wsThen_self Z⟩
  simp [termOk, h2]

theorem drop_label_not_pre_nl {L : List Char} (hnl : '\n' ∉ L) {Z : List Char} :
    ∀ n, 0 < n → n < L.length → (L.drop n).isPrefixOf ('\n' :: Z) = false := by
  intro n _ h2
  cases hd : L.drop n with
  | nil => exact absurd hd (drop_ne_nil h2)
  | cons a t =>
    have ha : a ∈ L := by
      refine List.drop_subset n L ?_
      rw [hd]
      exact List.mem_cons_self _ _
    have hne : ¬(a == '\n') = true := by
      simp only [beq_iff_eq]
      intro he
      exact hnl (he ▸ ha)
    simp [List.isPrefixOf, hne]

theorem drop_label_not_pre_nil {L : List Char} :
    ∀ n, 0 < n → n < L.length → (L.drop n).isPrefixOf ([] : List Char) = false := by
  intro n _ h2
  cases hd : L.drop n with
  | nil => exact absurd hd (drop_ne_nil h2)
  | cons a t => rfl

theorem noPre_append {pat : List Char} {xs rest : List Char}
    (h1 : ∀ n, n < xs.length → pat.isPrefixOf (xs.drop n ++ rest) = false)
    (h2 : ∀ n, pat.isPrefixOf (rest.drop n) = false) :
    ∀ n, pat.isPrefixOf ((xs ++ rest).drop n) = false := by
  intro n
  rw [List.drop_append_eq_append_drop]
  by_cases hn : n < xs.length
  · rw [Nat.sub_eq_zero_of_le (Nat.le_of_lt hn)]
    exact h1 n hn
  · have hx : xs.drop n = [] := List.drop_eq_nil_iff.mpr (Nat.le_of_not_lt hn)
    rw [hx, List.nil_append]
    exact h2 (n - xs.length)

theorem noPre_nil {pat : List Char} (h : pat ≠ []) :
    ∀ n, pat.isPrefixOf (([] : List Char).drop n) = false := by
  intro n
  rw [List.drop_nil]
  cases pat with
  | nil => exact absurd rfl h
  | cons a t => rfl

set_option maxHeartbeats 1000000 in
theorem replaceMainDish_cons (c : Char) (cs : List Char)
    (h : mainUnderscoreLabel.isPrefixOf (c :: cs) = false) :
    replaceMainDish (c :: cs) = c :: replaceMainDish cs := by
  rw [replaceMainDish.eq_def]
  split
  · rename_i rest heq
    exfalso
    rw [heq] at h
    simp [mainUnderscoreLabel, List.isPrefixOf] at h
  · rename_i c' cs' _ heq
    rw [List.cons.injEq] at heq
    rw [heq.1, heq.2]
  · rename_i heq
    exact absurd heq (by simp)

theorem replace_eq_self : ∀ (l : List Char),
    (∀ n, mainUnderscoreLabel.isPrefixOf (l.drop n) = false) →
    replaceMainDish l = l := by
  intro l
  induction l with
  | nil => intro _; rfl
  | cons c cs ih =>
    intro h
    rw [replaceMainDish_cons c cs (by simpa using h 0)]
    rw [ih (fun n => by simpa using h (n + 1))]

/-- Two adjacent whitespace characters somewhere in the list. -/
def hasDoubleSpace : List Char → Bool
  | c1 :: c2 :: rest => (isPySpace c1 && isPySpace c2) || hasDoubleSpace (c2 :: rest)
  | _ => false

theorem hasDoubleSpace_tail {c : Char} {cs : List Char}
    (h : hasDoubleSpace (c :: cs) = false) : hasDoubleSpace cs = false := by
  cases cs with
  | nil => rfl
  | cons c2 rest =>
    have h2 : ((isPySpace c && isPySpace c2) || hasDoubleSpace (c2 :: rest)) = false := h
    exact (Bool.or_eq_false_iff.mp h2).2

theorem goodChar_keep {c : Char} (h : goodChar c = true) : keepChar c = true := by
  unfold goodChar at h
  unfold keepChar
  cases hw : isWordChar c <;> cases hp : (c == '\'') <;> cases hm : (c == '-') <;>
    simp_all

theorem filter_keep_plain {A : List Char}
    (h : ∀ c ∈ A, goodChar c = true ∨ c = ' ') : A.filter keepChar = A := by
  refine List.filter_eq_self.mpr ?_
  intro c hc
  rcases h c hc with hg | hg
  · exact goodChar_keep hg
  · subst hg; decide

theorem pyStrip_field {A : List Char}
    (hgood : ∀ c ∈ A, goodChar c = true ∨ c = ' ')
    (hhead : A.head? ≠ some ' ') (hlast : A.getLast? ≠ some ' ') : pyStrip A = A := by
  apply pyStrip_eq_self
  · intro c hcH
    rcases hgood c (List.mem_of_mem_head? hcH) with h | h
    · exact goodChar_not_ws h
    · exact absurd (h ▸ hcH) hhead
  · intro c hcL
    rcases hgood c (List.mem_of_mem_getLast? hcL) with h | h
    · exact goodChar_not_ws h
    · exact absurd (h ▸ hcL) hlast

theorem collapseWsAux_flag_irrel {cs : List Char}
    (h : ∀ c, cs.head? = some c → isPySpace c = false) (b1 b2 : Bool) :
    collapseWsAux b1 cs = collapseWsAux b2 cs := by
  cases cs with
  | nil => rfl
  | cons c t =>
    simp only [collapseWsAux]
    rw [if_neg (by simp [h c rfl]), if_neg (by simp [h c rfl])]

theorem collapse_eq_self_plain : ∀ (A : List Char),
    (∀ c ∈ A, goodChar c = true ∨ c = ' ') → hasDoubleSpace A = false →
    collapseWs A = A := by
  intro A
  induction A with
  | nil => intro _ _; rfl
  | cons c cs ih =>
    intro hgood hdouble
    have htail := hasDoubleSpace_tail hdouble
    have ihcs := ih (fun x hx => hgood x (List.mem_cons_of_mem _ hx)) htail
    show collapseWsAux false (c :: cs) = c :: cs
    rcases hgood c (List.mem_cons_self _ _) with hg | hg
    · simp only [collapseWsAux]
      rw [if_neg (by simp [goodChar_not_ws hg])]
      rw [show collapseWsAux false cs = collapseWs cs from rfl, ihcs]
    · subst hg
      simp only [collapseWsAux]
      rw [if_pos (by decide : isPySpace ' ' = true)]
      rw [if_neg (by simp)]
      have hflag : collapseWsAux true cs = collapseWsAux false cs := by
        refine collapseWsAux_flag_irrel ?_ true false
        intro c2 hc2
        cases cs with
        | nil => simp at hc2
        | cons d t =>
          simp only [List.head?_cons, Option.some_inj] at hc2
          have hd2 : ((isPySpace ' ' && isPySpace d) || hasDoubleSpace (d :: t)) = false :=
            hdouble
          have h3 := (Bool.or_eq_false_iff.mp hd2).1
          rw [← hc2]
          exact (by simpa using h3 : isPySpace ' ' = true → isPySpace d = false) (by decide)
      rw [hflag, show collapseWsAux false cs = collapseWs cs from rfl, ihcs]

theorem cleanGuard_plain {A : List Char} (h1 : A ≠ [])
    (h2 : ∀ c ∈ A, goodChar c = true ∨ c = ' ')
    (h3 : A.head? ≠ some ' ') (h4 : A.getLast? ≠ some ' ')
    (h5 : hasDoubleSpace A = false) :
    cleanGuard A = A := by
  unfold cleanGuard
  rw [if_neg (by simp [h1])]
  unfold cleanField
  rw [filter_keep_plain h2, pyStrip_field h2 h3 h4, collapse_eq_self_plain A h2 h5]
  exact pyStrip_field h2 h3 h4

theorem extract_eval {r : List Char} {A B C : List Char}
    (hrep : replaceMainDish r = r)
    (hm : reSearch mainLabel [drinkLabel, snackLabel] r = some A)
    (hd : reSearch drinkLabel [snackLabel, mainLabel] r = some B)
    (hs : reSearch snackLabel [mainLabel, drinkLabel] r = some C)
    (hAne : (pyStrip A).isEmpty = false) :
    extract_dish_name r =
      ⟨cleanGuard (pyStrip A), cleanGuard (pyStrip B), cleanGuard (pyStrip C)⟩ := by
  simp only [extract_dish_name]
  rw [hrep, hm, hd, hs]
  show (let t2 := if (pyStrip A).isEmpty = true then
          fallbackPass (splitOnNl r) ⟨pyStrip A, pyStrip B, pyStrip C⟩
        else ⟨pyStrip A, pyStrip B, pyStrip C⟩
        DishTriple.mk (cleanGuard t2.main) (cleanGuard t2.drink) (cleanGuard t2.snack)) = _
  rw [if_neg (by simp [hAne])]

/-- The well-formed three-line response `MAIN DISH: A\nDRINK: B\nSNACK: C`. -/
def labeledResponse (A B C : List Char) : List Char :=
  mainLabel ++ (' ' :: (A ++ ('\n' ::
    (drinkLabel ++ (' ' :: (B ++ ('\n' :: (snackLabel ++ (' ' :: C)))))))))

theorem cons_space_good {A : List Char}
    (hA2 : ∀ c ∈ A, goodChar c = true ∨ c = ' ') :
    ∀ c ∈ (' ' :: A), goodChar c = true ∨ c = ' ' := by
  intro c hc
  rcases List.mem_cons.mp hc with h | h
  · exact Or.inr h
  · exact hA2 c h

theorem stops_nl_ok {Z : List Char} (stops : List (List Char))
    (h : ∀ L ∈ stops, ':' ∈ L ∧ '\n' ∉ L) :
    ∀ L ∈ stops, ':' ∈ L ∧
      ∀ n, 0 < n → n < L.length → (L.drop n).isPrefixOf ('\n' :: Z) = false :=
  fun L hL => ⟨(h L hL).1, drop_label_not_pre_nl (h L hL).2⟩

theorem stops_nil_ok (stops : List (List Char)) (h : ∀ L ∈ stops, ':' ∈ L) :
    ∀ L ∈ stops, ':' ∈ L ∧
      ∀ n, 0 < n → n < L.length → (L.drop n).isPrefixOf ([] : List Char) = false :=
  fun L hL => ⟨h L hL, drop_label_not_pre_nil⟩

theorem pat_skip_mainLabel (rest : List Char) :
    ∀ n, n < mainLabel.length →
      mainUnderscoreLabel.isPrefixOf (mainLabel.drop n ++ rest) = false := by
  intro n hn
  rw [show mainLabel.length = 10 from rfl] at hn
  interval_cases n <;> rfl

theorem pat_skip_drinkLabel (rest : List Char) :
    ∀ n, n < drinkLabel.length →
      mainUnderscoreLabel.isPrefixOf (drinkLabel.drop n ++ rest) = false := by
  intro n hn
  rw [show drinkLabel.length = 6 from rfl] at hn
  interval_cases n <;> rfl

theorem pat_skip_snackLabel (rest : List Char) :
    ∀ n, n < snackLabel.length →
      mainUnderscoreLabel.isPrefixOf (snackLabel.drop n ++ rest) = false := by
  intro n hn
  rw [show snackLabel.length = 6 from rfl] at hn
  interval_cases n <;> rfl

theorem drink_skip_mainLabel (rest : List Char) :
    ∀ n, n < mainLabel.length →
      drinkLabel.isPrefixOf (mainLabel.drop n ++ rest) = false := by
  intro n hn
  rw [show mainLabel.length = 10 from rfl] at hn
  interval_cases n <;> rfl

theorem snack_skip_mainLabel (rest : List Char) :
    ∀ n, n < mainLabel.length →
      snackLabel.isPrefixOf (mainLabel.drop n ++ rest) = false := by
  intro n hn
  rw [show mainLabel.length = 10 from rfl] at hn
  interval_cases n <;> rfl

theorem snack_skip_drinkLabel (rest : List Char) :
    ∀ n, n < drinkLabel.length →
      snackLabel.isPrefixOf (drinkLabel.drop n ++ rest) = false := by
  intro n hn
  rw [show drinkLabel.length = 6 from rfl] at hn
  interval_cases n <;> rfl

theorem label_skip_single_nl {L : List Char} (rest : List Char)
    (h0 : L.isPrefixOf ('\n' :: rest) = false) :
    ∀ n, n < (['\n'] : List Char).length →
      L.isPrefixOf ((['\n'] : List Char).drop n ++ rest) = false := by
  intro n hn
  rw [show (['\n'] : List Char).length = 1 from rfl] at hn
  interval_cases n
  exact h0

theorem noPre_field_end {L : List Char} (hc : ':' ∈ L) (fld : List Char)
    (hf : ∀ c ∈ fld, goodChar c = true ∨ c = ' ') :
    ∀ n, L.isPrefixOf (fld.drop n) = false := by
  intro n
  by_cases hn : n < fld.length
  · have h := skipField hc fld [] hf drop_label_not_pre_nil n hn
    rwa [List.append_nil] at h
  · have hx : fld.drop n = [] := List.drop_eq_nil_iff.mpr (Nat.le_of_not_lt hn)
    rw [hx]
    cases L with
    | nil => simp at hc
    | cons a t => rfl

theorem replace_r3 (A B C : List Char)
    (hA2 : ∀ c ∈ A, goodChar c = true ∨ c = ' ')
    (hB2 : ∀ c ∈ B, goodChar c = true ∨ c = ' ')
    (hC2 : ∀ c ∈ C, goodChar c = true ∨ c = ' ') :
    replaceMainDish (labeledResponse A B C) = labeledResponse A B C := by
  apply replace_eq_self
  unfold labeledResponse
  refine noPre_append (pat_skip_mainLabel _) ?_
  show ∀ n, mainUnderscoreLabel.isPrefixOf
    (((' ' :: A) ++ ('\n' :: (drinkLabel ++ (' ' :: (B ++ ('\n' ::
      (snackLabel ++ (' ' :: C)))))))).drop n) = false
  refine noPre_append
    (skipField (by decide) (' ' :: A) _ (cons_space_good hA2)
      (drop_label_not_pre_nl (by decide))) ?_
  show ∀ n, mainUnderscoreLabel.isPrefixOf
    (((['\n'] : List Char) ++ (drinkLabel ++ (' ' :: (B ++ ('\n' ::
      (snackLabel ++ (' ' :: C))))))).drop n) = false
  refine noPre_append (label_skip_single_nl _ (by rfl)) ?_
  refine noPre_append (pat_skip_drinkLabel _) ?_
  show ∀ n, mainUnderscoreLabel.isPrefixOf
    (((' ' :: B) ++ ('\n' :: (snackLabel ++ (' ' :: C)))).drop n) = false
  refine noPre_append
    (skipField (by decide) (' ' :: B) _ (cons_space_good hB2)
      (drop_label_not_pre_nl (by decide))) ?_
  show ∀ n, mainUnderscoreLabel.isPrefixOf
    (((['\n'] : List Char) ++ (snackLabel ++ (' ' :: C))).drop n) = false
  refine noPre_append (label_skip_single_nl _ (by rfl)) ?_
  refine noPre_append (pat_skip_snackLabel _) ?_
  exact noPre_field_end (by decide) (' ' :: C) (cons_space_good hC2)

theorem mainCapture_r3 (A B C : List Char) (hA1 : A ≠ [])
    (hA2 : ∀ c ∈ A, goodChar c = true ∨ c = ' ') (hA3 : A.head? ≠ some ' ')
    (hA4 : A.getLast? ≠ some ' ') :
    reSearch mainLabel [drinkLabel, snackLabel] (labeledResponse A B C) = some A := by
  unfold labeledResponse
  refine reSearch_found (isPre_append_self mainLabel _) ?_
  rw [List.drop_left]
  exact greedyWs_field hA1 hA2 hA3 hA4 (stops_nl_ok _ (by decide)) (termOk_nl _ _)

theorem drinkCapture_r3 (A B C : List Char)
    (hA2 : ∀ c ∈ A, goodChar c = true ∨ c = ' ')
    (hB1 : B ≠ []) (hB2 : ∀ c ∈ B, goodChar c = true ∨ c = ' ')
    (hB3 : B.head? ≠ some ' ') (hB4 : B.getLast? ≠ some ' ') :
    reSearch drinkLabel [snackLabel, mainLabel] (labeledResponse A B C) = some B := by
  unfold labeledResponse
  rw [reSearch_skip_append mainLabel (drink_skip_mainLabel _)]
  rw [show (' ' :: (A ++ ('\n' :: (drinkLabel ++ (' ' :: (B ++ ('\n' ::
        (snackLabel ++ (' ' :: C)))))))))
      = ((' ' :: A) ++ ('\n' :: (drinkLabel ++ (' ' :: (B ++ ('\n' ::
        (snackLabel ++ (' ' :: C)))))))) from rfl]
  rw [reSearch_skip_append (' ' :: A)
    (skipField (by decide) (' ' :: A) _ (cons_space_good hA2)
      (drop_label_not_pre_nl (by decide)))]
  rw [show ('\n' :: (drinkLabel ++ (' ' :: (B ++ ('\n' ::
        (snackLabel ++ (' ' :: C)))))))
      = ((['\n'] : List Char) ++ (drinkLabel ++ (' ' :: (B ++ ('\n' ::
        (snackLabel ++ (' ' :: C))))))) from rfl]
  rw [reSearch_skip_append (['\n'] : List Char) (label_skip_single_nl _ (by rfl))]
  refine reSearch_found (isPre_append_self drinkLabel _) ?_
  rw [List.drop_left]
  exact greedyWs_field hB1 hB2 hB3 hB4 (stops_nl_ok _ (by decide)) (termOk_nl _ _)

theorem snackCapture_r3 (A B C : List Char)
    (hA2 : ∀ c ∈ A, goodChar c = true ∨ c = ' ')
    (hB2 : ∀ c ∈ B, goodChar c = true ∨ c = ' ')
    (hC1 : C ≠ []) (hC2 : ∀ c ∈ C, goodChar c = true ∨ c = ' ')
    (hC3 : C.head? ≠ some ' ') (hC4 : C.getLast? ≠ some ' ') :
    reSearch snackLabel [mainLabel, drinkLabel] (labeledResponse A B C) = some C := by
  unfold labeledResponse
  rw [reSearch_skip_append mainLabel (snack_skip_mainLabel _)]
  rw [show (' ' :: (A ++ ('\n' :: (drinkLabel ++ (' ' :: (B ++ ('\n' ::
        (snackLabel ++ (' ' :: C)))))))))
      = ((' ' :: A) ++ ('\n' :: (drinkLabel ++ (' ' :: (B ++ ('\n' ::
        (snackLabel ++ (' ' :: C)))))))) from rfl]
  rw [reSearch_skip_append (' ' :: A)
    (skipField (by decide) (' ' :: A) _ (cons_space_good hA2)
      (drop_label_not_pre_nl (by decide)))]
  rw [show ('\n' :: (drinkLabel ++ (' ' :: (B ++ ('\n' ::
        (snackLabel ++ (' ' :: C)))))))
      = ((['\n'] : List Char) ++ (drinkLabel ++ (' ' :: (B ++ ('\n' ::
        (snackLabel ++ (' ' :: C))))))) from rfl]
  rw [reSearch_skip_append (['\n'] : List Char) (label_skip_single_nl _ (by rfl))]
  rw [reSearch_skip_append drinkLabel (snack_skip_drinkLabel _)]
  rw [show (' ' :: (B ++ ('\n' :: (snackLabel ++ (' ' :: C)))))
      = ((' ' :: B) ++ ('\n' :: (snackLabel ++ (' ' :: C)))) from rfl]
  rw [reSearch_skip_append (' ' :: B)
    (skipField (by decide) (' ' :: B) _ (cons_space_good hB2)
      (drop_label_not_pre_nl (by decide)))]
  rw [show ('\n' :: (snackLabel ++ (' ' :: C)))
      = ((['\n'] : List Char) ++ (snackLabel ++ (' ' :: C))) from rfl]
  rw [reSearch_skip_append (['\n'] : List Char) (label_skip_single_nl _ (by rfl))]
  refine reSearch_found (isPre_append_self snackLabel _) ?_
  rw [List.drop_left]
  have h := greedyWs_field hC1 hC2 hC3 hC4
    (stops_nil_ok [mainLabel, drinkLabel] (by decide)) (termOk_nil _)
  rwa [List.append_nil] at h

/-- C3: on a well-formed three-line response `MAIN DISH: A\nDRINK: B\nSNACK: C`
whose field values are non-empty, consist of kept non-whitespace characters
and single internal spaces, and have no leading or trailing whitespace (which
also rules out newlines, colons, and hence any embedded field label), the
extractor returns exactly `{main := A, drink := B, snack := C}`. -/
theorem extract_dish_name_labeled_lines (A B C : List Char)
    (hA1 : A ≠ []) (hA2 : ∀ c ∈ A, goodChar c = true ∨ c = ' ')
    (hA3 : A.head? ≠ some ' ') (hA4 : A.getLast? ≠ some ' ')
    (hA5 : hasDoubleSpace A = false)
    (hB1 : B ≠ []) (hB2 : ∀ c ∈ B, goodChar c = true ∨ c = ' ')
    (hB3 : B.head? ≠ some ' ') (hB4 : B.getLast? ≠ some ' ')
    (hB5 : hasDoubleSpace B = false)
    (hC1 : C ≠ []) (hC2 : ∀ c ∈ C, goodChar c = true ∨ c = ' ')
    (hC3 : C.head? ≠ some ' ') (hC4 : C.getLast? ≠ some ' ')
    (hC5 : hasDoubleSpace C = false) :
    extract_dish_name (labeledResponse A B C) = ⟨A, B, C⟩ := by
  have hsA : pyStrip A = A := pyStrip_field hA2 hA3 hA4
  have hsB : pyStrip B = B := pyStrip_field hB2 hB3 hB4
  have hsC : pyStrip C = C := pyStrip_field hC2 hC3 hC4
  rw [extract_eval (replace_r3 A B C hA2 hB2 hC2)
    (mainCapture_r3 A B C hA1 hA2 hA3 hA4)
    (drinkCapture_r3 A B C hA2 hB1 hB2 hB3 hB4)
    (snackCapture_r3 A B C hA2 hB2 hC1 hC2 hC3 hC4)
    (by
      rw [hsA]
      cases A with
      | nil => exact absurd rfl hA1
      | cons a t => rfl)]
  rw [hsA, hsB, hsC]
  rw [cleanGuard_plain hA1 hA2 hA3 hA4 hA5, cleanGuard_plain hB1 hB2 hB3 hB4 hB5,
    cleanGuard_plain hC1 hC2 hC3 hC4 hC5]

/-- Witness for C3 at concrete field values. -/
theorem extract_dish_name_labeled_lines_witness :
    extract_dish_name
        (labeledResponse "Spaghetti Carbonara".data "Chianti".data "Garlic Bread".data)
      = ⟨"Spaghetti Carbonara".data, "Chianti".data, "Garlic Bread".data⟩ :=
  extract_dish_name_labeled_lines _ _ _ (by decide) (by decide) (by decide) (by decide)
    (by decide) (by decide) (by decide) (by decide) (by decide) (by decide)
    (by decide) (by decide) (by decide) (by decide) (by decide)

/-- The well-formed single-line response `MAIN DISH: A DRINK: B SNACK: C`. -/
def inlineResponse (A B C : List Char) : List Char :=
  mainLabel ++ (' ' :: (A ++ (' ' ::
    (drinkLabel ++ (' ' :: (B ++ (' ' :: (snackLabel ++ (' ' :: C)))))))))

theorem stops_pair_ok {L1 L2 : List Char} {W : List Char}
    (h1 : ':' ∈ L1) (h2 : ':' ∈ L2)
    (H1 : ∀ n, 0 < n → n < L1.length → (L1.drop n).isPrefixOf W = false)
    (H2 : ∀ n, 0 < n → n < L2.length → (L2.drop n).isPrefixOf W = false) :
    ∀ L ∈ [L1, L2], ':' ∈ L ∧
      ∀ n, 0 < n → n < L.length → (L.drop n).isPrefixOf W = false := by
  intro L hL
  rcases List.mem_cons.mp hL with h | h
  · subst h; exact ⟨h1, H1⟩
  · rcases List.mem_cons.mp h with h | h
    · subst h; exact ⟨h2, H2⟩
    · simp at h

theorem hw_drink_space (Z : List Char) :
    ∀ n, 0 < n → n < drinkLabel.length →
      (drinkLabel.drop n).isPrefixOf (' ' :: Z) = false := by
  intro n h1 h2
  rw [show drinkLabel.length = 6 from rfl] at h2
  interval_cases n <;> rfl

theorem hw_snack_space (Z : List Char) :
    ∀ n, 0 < n → n < snackLabel.length →
      (snackLabel.drop n).isPrefixOf (' ' :: Z) = false := by
  intro n h1 h2
  rw [show snackLabel.length = 6 from rfl] at h2
  interval_cases n <;> rfl

theorem hw_pat_space (Z : List Char) :
    ∀ n, 0 < n → n < mainUnderscoreLabel.length →
      (mainUnderscoreLabel.drop n).isPrefixOf (' ' :: Z) = false := by
  intro n h1 h2
  rw [show mainUnderscoreLabel.length = 10 from rfl] at h2
  interval_cases n <;> rfl

theorem hw_main_space_snack (Z : List Char) :
    ∀ n, 0 < n → n < mainLabel.length →
      (mainLabel.drop n).isPrefixOf (' ' :: (snackLabel ++ Z)) = false := by
  intro n h1 h2
  rw [show mainLabel.length = 10 from rfl] at h2
  interval_cases n <;> rfl

theorem label_skip_single {L : List Char} (c : Char) (rest : List Char)
    (h0 : L.isPrefixOf (c :: rest) = false) :
    ∀ n, n < ([c] : List Char).length →
      L.isPrefixOf (([c] : List Char).drop n ++ rest) = false := by
  intro n hn
  rw [show ([c] : List Char).length = 1 from rfl] at hn
  interval_cases n
  exact h0

theorem replace_r4 (A B C : List Char)
    (hA2 : ∀ c ∈ A, goodChar c = true ∨ c = ' ')
    (hB2 : ∀ c ∈ B, goodChar c = true ∨ c = ' ')
    (hC2 : ∀ c ∈ C, goodChar c = true ∨ c = ' ') :
    replaceMainDish (inlineResponse A B C) = inlineResponse A B C := by
  apply replace_eq_self
  unfold inlineResponse
  refine noPre_append (pat_skip_mainLabel _) ?_
  show ∀ n, mainUnderscoreLabel.isPrefixOf
    (((' ' :: A) ++ (' ' :: (drinkLabel ++ (' ' :: (B ++ (' ' ::
      (snackLabel ++ (' ' :: C)))))))).drop n) = false
  refine noPre_append
    (skipField (by decide) (' ' :: A) _ (cons_space_good hA2) (hw_pat_space _)) ?_
  show ∀ n, mainUnderscoreLabel.isPrefixOf
    ((([' '] : List Char) ++ (drinkLabel ++ (' ' :: (B ++ (' ' ::
      (snackLabel ++ (' ' :: C))))))).drop n) = false
  refine noPre_append (label_skip_single ' ' _ (by rfl)) ?_
  refine noPre_append (pat_skip_drinkLabel _) ?_
  show ∀ n, mainUnderscoreLabel.isPrefixOf
    (((' ' :: B) ++ (' ' :: (snackLabel ++ (' ' :: C)))).drop n) = false
  refine noPre_append
    (skipField (by decide) (' ' :: B) _ (cons_space_good hB2) (hw_pat_space _)) ?_
  show ∀ n, mainUnderscoreLabel.isPrefixOf
    ((([' '] : List Char) ++ (snackLabel ++ (' ' :: C))).drop n) = false
  refine noPre_append (label_skip_single ' ' _ (by rfl)) ?_
  refine noPre_append (pat_skip_snackLabel _) ?_
  exact noPre_field_end (by decide) (' ' :: C) (cons_space_good hC2)

theorem mainCapture_r4 (A B C : List Char) (hA1 : A ≠ [])
    (hA2 : ∀ c ∈ A, goodChar c = true ∨ c = ' ') (hA3 : A.head? ≠ some ' ')
    (hA4 : A.getLast? ≠ some ' ') :
    reSearch mainLabel [drinkLabel, snackLabel] (inlineResponse A B C) = some A := by
  unfold inlineResponse
  refine reSearch_found (isPre_append_self mainLabel _) ?_
  rw [List.drop_left]
  exact greedyWs_field hA1 hA2 hA3 hA4
    (stops_pair_ok (by decide) (by decide) (hw_drink_space _) (hw_snack_space _))
    (termOk_space_label _ (by simp))

theorem drinkCapture_r4 (A B C : List Char)
    (hA2 : ∀ c ∈ A, goodChar c = true ∨ c = ' ')
    (hB1 : B ≠ []) (hB2 : ∀ c ∈ B, goodChar c = true ∨ c = ' ')
    (hB3 : B.head? ≠ some ' ') (hB4 : B.getLast? ≠ some ' ') :
    reSearch drinkLabel [snackLabel, mainLabel] (inlineResponse A B C) = some B := by
  unfold inlineResponse
  rw [reSearch_skip_append mainLabel (drink_skip_mainLabel _)]
  rw [show (' ' :: (A ++ (' ' :: (drinkLabel ++ (' ' :: (B ++ (' ' ::
        (snackLabel ++ (' ' :: C)))))))))
      = ((' ' :: A) ++ (' ' :: (drinkLabel ++ (' ' :: (B ++ (' ' ::
        (snackLabel ++ (' ' :: C)))))))) from rfl]
  rw [reSearch_skip_append (' ' :: A)
    (skipField (by decide) (' ' :: A) _ (cons_space_good hA2) (hw_drink_space _))]
  rw [show (' ' :: (drinkLabel ++ (' ' :: (B ++ (' ' ::
        (snackLabel ++ (' ' :: C)))))))
      = (([' '] : List Char) ++ (drinkLabel ++ (' ' :: (B ++ (' ' ::
        (snackLabel ++ (' ' :: C))))))) from rfl]
  rw [reSearch_skip_append ([' '] : List Char) (label_skip_single ' ' _ (by rfl))]
  refine reSearch_found (isPre_append_self drinkLabel _) ?_
  rw [List.drop_left]
  exact greedyWs_field hB1 hB2 hB3 hB4
    (stops_pair_ok (by decide) (by decide) (hw_snack_space _) (hw_main_space_snack _))
    (termOk_space_label _ (by simp))

theorem snackCapture_r4 (A B C : List Char)
    (hA2 : ∀ c ∈ A, goodChar c = true ∨ c = ' ')
    (hB2 : ∀ c ∈ B, goodChar c = true ∨ c = ' ')
    (hC1 : C ≠ []) (hC2 : ∀ c ∈ C, goodChar c = true ∨ c = ' ')
    (hC3 : C.head? ≠ some ' ') (hC4 : C.getLast? ≠ some ' ') :
    reSearch snackLabel [mainLabel, drinkLabel] (inlineResponse A B C) = some C := by
  unfold inlineResponse
  rw [reSearch_skip_append mainLabel (snack_skip_mainLabel _)]
  rw [show (' ' :: (A ++ (' ' :: (drinkLabel ++ (' ' :: (B ++ (' ' ::
        (snackLabel ++ (' ' :: C)))))))))
      = ((' ' :: A) ++ (' ' :: (drinkLabel ++ (' ' :: (B ++ (' ' ::
        (snackLabel ++ (' ' :: C)))))))) from rfl]
  rw [reSearch_skip_append (' ' :: A)
    (skipField (by decide) (' ' :: A) _ (cons_space_good hA2) (hw_snack_space _))]
  rw [show (' ' :: (drinkLabel ++ (' ' :: (B ++ (' ' ::
        (snackLabel ++ (' ' :: C)))))))
      = (([' '] : List Char) ++ (drinkLabel ++ (' ' :: (B ++ (' ' ::
        (snackLabel ++ (' ' :: C))))))) from rfl]
  rw [reSearch_skip_append ([' '] : List Char) (label_skip_single ' ' _ (by rfl))]
  rw [reSearch_skip_append drinkLabel (snack_skip_drinkLabel _)]
  rw [show (' ' :: (B ++ (' ' :: (snackLabel ++ (' ' :: C)))))
      = ((' ' :: B) ++ (' ' :: (snackLabel ++ (' ' :: C)))) from rfl]
  rw [reSearch_skip_append (' ' :: B)
    (skipField (by decide) (' ' :: B) _ (cons_space_good hB2) (hw_snack_space _))]
  rw [show (' ' :: (snackLabel ++ (' ' :: C)))
      = (([' '] : List Char) ++ (snackLabel ++ (' ' :: C))) from rfl]
  rw [reSearch_skip_append ([' '] : List Char) (label_skip_single ' ' _ (by rfl))]
  refine reSearch_found (isPre_append_self snackLabel _) ?_
  rw [List.drop_left]
  have h := greedyWs_field hC1 hC2 hC3 hC4
    (stops_nil_ok [mainLabel, drinkLabel] (by decide)) (termOk_nil _)
  rwa [List.append_nil] at h

/-- C4: on a well-formed single-line response `MAIN DISH: A DRINK: B SNACK: C`
with field values as in the three-line case, the extractor splits the line at
the label boundaries and returns exactly `{main := A, drink := B, snack := C}`. -/
theorem extract_dish_name_single_line (A B C : List Char)
    (hA1 : A ≠ []) (hA2 : ∀ c ∈ A, goodChar c = true ∨ c = ' ')
    (hA3 : A.head? ≠ some ' ') (hA4 : A.getLast? ≠ some ' ')
    (hA5 : hasDoubleSpace A = false)
    (hB1 : B ≠ []) (hB2 : ∀ c ∈ B, goodChar c = true ∨ c = ' ')
    (hB3 : B.head? ≠ some ' ') (hB4 : B.getLast? ≠ some ' ')
    (hB5 : hasDoubleSpace B = false)
    (hC1 : C ≠ []) (hC2 : ∀ c ∈ C, goodChar c = true ∨ c = ' ')
    (hC3 : C.head? ≠ some ' ') (hC4 : C.getLast? ≠ some ' ')
    (hC5 : hasDoubleSpace C = false) :
    extract_dish_name (inlineResponse A B C) = ⟨A, B, C⟩ := by
  have hsA : pyStrip A = A := pyStrip_field hA2 hA3 hA4
  have hsB : pyStrip B = B := pyStrip_field hB2 hB3 hB4
  have hsC : pyStrip C = C := pyStrip_field hC2 hC3 hC4
  rw [extract_eval (replace_r4 A B C hA2 hB2 hC2)
    (mainCapture_r4 A B C hA1 hA2 hA3 hA4)
    (drinkCapture_r4 A B C hA2 hB1 hB2 hB3 hB4)
    (snackCapture_r4 A B C hA2 hB2 hC1 hC2 hC3 hC4)
    (by
      rw [hsA]
      cases A with
      | nil => exact absurd rfl hA1
      | cons a t => rfl)]
  rw [hsA, hsB, hsC]
  rw [cleanGuard_plain hA1 hA2 hA3 hA4 hA5, cleanGuard_plain hB1 hB2 hB3 hB4 hB5,
    cleanGuard_plain hC1 hC2 hC3 hC4 hC5]

/-- Witness for C4 at concrete field values. -/
theorem extract_dish_name_single_line_witness :
    extract_dish_name
        (inlineResponse "Kung Pao Chicken".data "Lychee Tea".data "Edamame".data)
      = ⟨"Kung Pao Chicken".data, "Lychee Tea".data, "Edamame".data⟩ :=
  extract_dish_name_single_line _ _ _ (by decide) (by decide) (by decide) (by decide)
    (by decide) (by decide) (by decide) (by decide) (by decide) (by decide)
    (by decide) (by decide) (by decide) (by decide) (by decide)

/-- Witness for C2: the per-word candidate "Salmon" indeed has length
above 3, via the fallback-order theorem at a concrete dish name. -/
theorem search_recipe_smart_fallback_order_witness :
    3 < ("Salmon".data : List Char).length :=
  (search_recipe_smart_fallback_order (fun _ => (none : Option Nat))
    "Romantic Seared Salmon".data).2.1 "Salmon".data (by decide)

/-- Witness for C6: the surviving token "Lovebird" of the normalized
"Lovebird Stew" is not a flair entry. -/
theorem clean_dish_name_whole_token_witness :
    isFlair "Lovebird".data = false :=
  (clean_dish_name_whole_token "Lovebird Stew".data).2.1 "Lovebird".data (by decide)

/-- Witness for C10: the token of the cleaned "Romantic Pizza!" reaching
the order links is not a flair entry. -/
theorem get_order_links_encode_witness :
    isFlair "Pizza".data = false :=
  (get_order_links_encode "Romantic Pizza!".data).2.2.2.1 "Pizza".data (by decide)
